import Mathlib

/-!
Verification development for the chattyboi extension dependency-resolution
and load-ordering engine.

The definitions below are a shallow embedding of the Python source:
  * `chattyboi.py` (flat revision) and `chattyboi/extension_helper.py`
    (package revision) — `ExtensionHelper.load_order`, `ExtensionHelper.load`,
    `ExtensionHelper.load_all`;
  * `chattyboi/extension.py` — `Extension.aliases`, `Extension.add_alias`;
  * `extapi.py` / `extapi/extensions.py` — `get_extension`;
  * `classes/extension_helper.py` — `ExtensionHelper.get_metadata` and its
    (broken) `load_all`.

Python dicts are embedded as insertion-ordered association lists with
replace-in-place update (`dictInsert`); Python sets are embedded as lists
used only through membership; exceptions become `Except`/`Option` errors.
-/

/-- Equality on `Except` results is decidable when it is on both components;
used to evaluate the embedded functions on concrete inputs. -/
instance {ε α : Type} [DecidableEq ε] [DecidableEq α] : DecidableEq (Except ε α) := fun
  | .error e, .error e' =>
    if h : e = e' then .isTrue (by rw [h])
    else .isFalse (by intro hc; cases hc; exact h rfl)
  | .error _, .ok _ => .isFalse (by intro hc; cases hc)
  | .ok _, .error _ => .isFalse (by intro hc; cases hc)
  | .ok a, .ok b =>
    if h : a = b then .isTrue (by rw [h])
    else .isFalse (by intro hc; cases hc; exact h rfl)

namespace Chattyboi

/-- A filesystem path of an extension package, embedded as a string. -/
abbrev Path := String

/-- Parsed extension metadata after `get_metadata` applied its defaults:
the keys of the metadata dict that the engine reads. -/
structure Metadata where
  name : String
  source : String
  author : String
  version : String
  license : String
  summary : String
  description : String
  requires : List String
  supports : List String
  implements : List String
deriving DecidableEq

/-- Convenience constructor filling the display fields with the defaults
from `get_metadata`. -/
def mkMd (name source : String) (requires supports implements : List String) : Metadata :=
  ⟨name, source, "Unknown", "<unknown>", "No license", "No summary provided.",
   "No description provided.", requires, supports, implements⟩

/-- The dependency graph built by `load_order`: the Python dict
`{path: [paths this extension depends on]}`, as an insertion-ordered
association list. -/
abbrev Graph := List (Path × List Path)

/-- The edge test of `load_order` (line
`any(req == info_v['source'] or req in info_v['implements'] for req in info_u['requires'])`):
does some entry of `u.requires` match `v`'s source or one of `v`'s implements? -/
def providesReq (u v : Metadata) : Bool :=
  u.requires.any (fun req => req == v.source || v.implements.contains req)

/-- Graph construction of `load_order`
(`graph = {path: [] for path, _ in extensions}` followed by the double loop
appending `path_v` to `graph[path_u]`).  Assumes the paths are pairwise
distinct, as the Python dict keying does. -/
def buildGraph (exts : List (Path × Metadata)) : Graph :=
  exts.map (fun u =>
    (u.1, ((exts.filter (fun e => decide (e.1 ≠ u.1))).filter
             (fun e => providesReq u.2 e.2)).map Prod.fst))

/-- Removal of the first occurrence of `n` from a list
(Python `list.remove(n)`; identity when `n` is absent, which is the only
way `load_order` ever calls it guarded by `n in edges`). -/
def eraseFirst (n : Path) : List Path → List Path
  | [] => []
  | x :: t => if x = n then t else x :: eraseFirst n t

/-- One pass of the inner loop of `load_order`'s Kahn iteration:
`for m in (node for node, edges in graph.items() if n in edges):
graph[m].remove(n); if len(graph[m]) == 0: queue.append(m)`.
Returns the updated graph and the nodes appended to the queue, in
iteration order. -/
def eraseStep (n : Path) : Graph → Graph × List Path
  | [] => ([], [])
  | (m, es) :: rest =>
    let r := eraseStep n rest
    if n ∈ es then
      let es' := eraseFirst n es
      ((m, es') :: r.1, (if es' = [] then [m] else []) ++ r.2)
    else ((m, es) :: r.1, r.2)

/-- Total number of edges left in the graph; the fuel measure for the
Kahn loop (each iteration pops one queue entry and enqueues at most as
many nodes as edges it removes). -/
def totalEdges (g : Graph) : Nat := (g.map (fun e => e.2.length)).sum

/-- The `while queue:` loop of `load_order`.  `queue.pop()` pops the last
element; the loop appends it to `order` and relaxes the graph.  The fuel
argument only bounds the iteration count; `load_order` supplies a fuel
that is provably never exhausted. -/
def kahnLoop (fuel : Nat) (graph : Graph) (queue order : List Path) : List Path × Graph :=
  match fuel with
  | 0 => (order, graph)
  | fuel' + 1 =>
    match queue.getLast? with
    | none => (order, graph)
    | some n =>
      let r := eraseStep n graph
      kahnLoop fuel' r.1 (queue.dropLast ++ r.2) (order ++ [n])

/-- `ExtensionHelper.load_order` (chattyboi.py 112–137 and
chattyboi/extension_helper.py 51–76): Kahn's algorithm over the
requires/source-or-implements graph.  The `ValueError`/`RuntimeError`
raised on a dependency cycle is embedded as `.error g` carrying the
residual graph that the Python error message interpolates. -/
def load_order (exts : List (Path × Metadata)) : Except Graph (List Path) :=
  let graph := buildGraph exts
  let queue := (graph.filter (fun e => decide (e.2 = []))).map Prod.fst
  let r := kahnLoop (queue.length + totalEdges graph) graph queue []
  if r.2.any (fun e => !e.2.isEmpty) then .error r.2 else .ok r.1

example :
    load_order [("./extensions/core", mkMd "core" "core" [] [] []),
                ("./extensions/plugin-a", mkMd "plugin-a" "plugin-a" ["core"] [] [])]
      = .ok ["./extensions/core", "./extensions/plugin-a"] := by decide

example :
    load_order [("px", mkMd "x" "x" ["y"] [] []), ("py", mkMd "y" "y" ["x"] [] [])]
      = .error [("px", ["py"]), ("py", ["px"])] := by decide

/-! ### List helper lemmas -/

/-- Position of the first occurrence of an element in a list. -/
def idx : List Path → Path → Nat
  | [], _ => 0
  | b :: t, a => if b = a then 0 else idx t a + 1

theorem idx_append_left {a : Path} {l : List Path} (h : a ∈ l) (l' : List Path) :
    idx (l ++ l') a = idx l a := by
  induction l with
  | nil => cases h
  | cons b t ih =>
    by_cases hb : b = a
    · simp [idx, hb]
    · have ht : a ∈ t := by
        rcases List.mem_cons.mp h with h' | h'
        · exact absurd h'.symm hb
        · exact h'
      simp [idx, hb, ih ht]

theorem idx_lt_length {a : Path} {l : List Path} (h : a ∈ l) : idx l a < l.length := by
  induction l with
  | nil => cases h
  | cons b t ih =>
    by_cases hb : b = a
    · simp [idx, hb]
    · have ht : a ∈ t := by
        rcases List.mem_cons.mp h with h' | h'
        · exact absurd h'.symm hb
        · exact h'
      have := ih ht
      simp only [idx, hb, if_false, List.length_cons]
      omega

theorem idx_append_self {a : Path} {l : List Path} (h : a ∉ l) :
    idx (l ++ [a]) a = l.length := by
  induction l with
  | nil => simp [idx]
  | cons b t ih =>
    have hb : b ≠ a := fun hc => h (hc ▸ List.mem_cons_self b t)
    have ht : a ∉ t := fun hc => h (List.mem_cons_of_mem b hc)
    simp [idx, hb, ih ht]

theorem eraseFirst_of_not_mem {n : Path} {l : List Path} (h : n ∉ l) :
    eraseFirst n l = l := by
  induction l with
  | nil => rfl
  | cons x t ih =>
    have hx : x ≠ n := fun hc => h (hc ▸ List.mem_cons_self x t)
    have ht : n ∉ t := fun hc => h (List.mem_cons_of_mem x hc)
    simp [eraseFirst, hx, ih ht]

theorem eraseFirst_length {n : Path} {l : List Path} (h : n ∈ l) :
    (eraseFirst n l).length + 1 = l.length := by
  induction l with
  | nil => cases h
  | cons x t ih =>
    by_cases hx : x = n
    · simp [eraseFirst, hx]
    · have ht : n ∈ t := by
        rcases List.mem_cons.mp h with h' | h'
        · exact absurd h'.symm hx
        · exact h'
      simp [eraseFirst, hx, ← ih ht]

theorem eraseFirst_eq_nil_iff {n : Path} {l : List Path} (h : n ∈ l) :
    eraseFirst n l = [] ↔ l = [n] := by
  cases l with
  | nil => cases h
  | cons x t =>
    by_cases hx : x = n
    · subst hx
      simp [eraseFirst]
    · simp [eraseFirst, hx]

theorem exists_ne_of_ne_singleton {n : Path} {l : List Path} (hnd : l.Nodup)
    (h0 : l ≠ []) (h1 : l ≠ [n]) : ∃ e ∈ l, e ≠ n := by
  cases l with
  | nil => exact absurd rfl h0
  | cons x t =>
    by_cases hx : x = n
    · subst hx
      cases t with
      | nil => exact absurd rfl h1
      | cons y s =>
        have hy : y ≠ x := by
          have := (List.nodup_cons.mp hnd).1
          intro hc
          exact this (hc ▸ List.mem_cons_self y s)
        exact ⟨y, by simp, hy⟩
    · exact ⟨x, by simp, hx⟩

theorem filter_notMem_congr {n : Path} {t : List Path} (order : List Path) (h : n ∉ t) :
    t.filter (fun p => decide (p ∉ order ++ [n])) = t.filter (fun p => decide (p ∉ order)) := by
  apply List.filter_congr
  intro p hp
  have hpn : p ≠ n := fun hc => h (hc ▸ hp)
  simp [List.mem_append, hpn]

/-- Filtering out the members of `order ++ [n]` is the same as filtering out
the members of `order` and then removing the (single) occurrence of `n`. -/
theorem filter_notMem_append {es : List Path} (order : List Path) {n : Path}
    (hnd : es.Nodup) (hn : n ∉ order) :
    es.filter (fun p => decide (p ∉ order ++ [n])) =
      eraseFirst n (es.filter (fun p => decide (p ∉ order))) := by
  induction es with
  | nil => rfl
  | cons x t ih =>
    have hnd' : t.Nodup := hnd.of_cons
    by_cases hx : x = n
    · subst hx
      have hxt : x ∉ t := (List.nodup_cons.mp hnd).1
      have hkeep : (decide (x ∉ order)) = true := by simpa using hn
      simp only [List.filter_cons, hkeep, if_true]
      have hdrop : (decide (x ∉ order ++ [x])) = false := by simp
      simp only [hdrop, if_false, eraseFirst, if_pos rfl]
      exact filter_notMem_congr order hxt
    · by_cases ho : x ∈ order
      · have h1 : (decide (x ∉ order ++ [n])) = false := by simp [List.mem_append, ho]
        have h2 : (decide (x ∉ order)) = false := by simpa using ho
        simp only [List.filter_cons, h1, h2, if_false]
        exact ih hnd'
      · have h1 : (decide (x ∉ order ++ [n])) = true := by
          simp [List.mem_append, ho, hx]
        have h2 : (decide (x ∉ order)) = true := by simpa using ho
        simp only [List.filter_cons, h1, h2, if_true, eraseFirst, if_neg hx]
        exact congrArg (x :: ·) (ih hnd')

/-! ### eraseStep characterization -/

theorem eraseStep_fst (n : Path) (g : Graph) :
    (eraseStep n g).1 = g.map (fun e => (e.1, eraseFirst n e.2)) := by
  induction g with
  | nil => rfl
  | cons e rest ih =>
    obtain ⟨m, es⟩ := e
    by_cases h : n ∈ es
    · simp only [eraseStep, if_pos h, List.map_cons, ih]
    · simp only [eraseStep, if_neg h, List.map_cons, ih, eraseFirst_of_not_mem h]

theorem eraseStep_snd (n : Path) (g : Graph) :
    (eraseStep n g).2 = (g.filter (fun e => decide (e.2 = [n]))).map Prod.fst := by
  induction g with
  | nil => rfl
  | cons e rest ih =>
    obtain ⟨m, es⟩ := e
    by_cases h : n ∈ es
    · by_cases h2 : eraseFirst n es = []
      · have hes : es = [n] := (eraseFirst_eq_nil_iff h).mp h2
        simp [eraseStep, h, h2, ih, hes, List.filter_cons, eraseFirst]
      · have hes : es ≠ [n] := by
          intro hc
          exact h2 (by simp [hc, eraseFirst])
        simp [eraseStep, h, h2, ih, List.filter_cons, hes]
    · have hes : es ≠ [n] := by
        intro hc
        exact h (by simp [hc])
      simp [eraseStep, h, ih, List.filter_cons, hes]

theorem eraseStep_measure (n : Path) (g : Graph) :
    totalEdges (eraseStep n g).1 + ((eraseStep n g).2).length ≤ totalEdges g := by
  induction g with
  | nil => simp [eraseStep, totalEdges]
  | cons e rest ih =>
    obtain ⟨m, es⟩ := e
    by_cases h : n ∈ es
    · have hlen : (eraseFirst n es).length + 1 = es.length := eraseFirst_length h
      by_cases h2 : eraseFirst n es = []
      · simp only [eraseStep, if_pos h, if_pos h2, totalEdges, List.map_cons, List.sum_cons,
          List.length_append, List.length_cons, List.length_nil] at *
        omega
      · simp only [eraseStep, if_pos h, if_neg h2, totalEdges, List.map_cons, List.sum_cons,
          List.length_append, List.length_nil] at *
        omega
    · simp only [eraseStep, if_neg h, totalEdges, List.map_cons, List.sum_cons] at *
      omega

theorem getLast?_decomp {l : List Path} {n : Path} (h : l.getLast? = some n) :
    l = l.dropLast ++ [n] := by
  induction l with
  | nil => cases h
  | cons x t ih =>
    cases t with
    | nil =>
      simp only [List.getLast?_singleton, Option.some.injEq] at h
      simp [h]
    | cons y s =>
      rw [List.getLast?_cons_cons] at h
      have := ih h
      calc x :: y :: s = x :: ((y :: s).dropLast ++ [n]) := by rw [← this]
        _ = (x :: y :: s).dropLast ++ [n] := by simp [List.dropLast_cons₂]

theorem mapCongrMem {α β : Type} {l : List α} {f f' : α → β}
    (h : ∀ a ∈ l, f a = f' a) : l.map f = l.map f' := by
  induction l with
  | nil => rfl
  | cons x t ih =>
    simp only [List.map_cons, h x (List.mem_cons_self x t)]
    exact congrArg _ (ih fun a ha => h a (List.mem_cons_of_mem x ha))

/-! ### Association-list lemmas for the graph dict -/

theorem assoc_key_mem {g : Graph} {m : Path} (h : m ∈ g.map Prod.fst) :
    ∃ es, (m, es) ∈ g := by
  obtain ⟨e, he, heq⟩ := List.mem_map.mp h
  exact ⟨e.2, by rw [show (m, e.2) = e by cases e; cases heq; rfl]; exact he⟩

theorem assoc_uniq {g : Graph} (hnd : (g.map Prod.fst).Nodup) {m : Path} {a b : List Path}
    (ha : (m, a) ∈ g) (hb : (m, b) ∈ g) : a = b := by
  induction g with
  | nil => cases ha
  | cons e rest ih =>
    have hnd' : (rest.map Prod.fst).Nodup := (List.nodup_cons.mp (by simpa using hnd)).2
    have hkey : e.1 ∉ rest.map Prod.fst := (List.nodup_cons.mp (by simpa using hnd)).1
    rcases List.mem_cons.mp ha with ha' | ha' <;> rcases List.mem_cons.mp hb with hb' | hb'
    · exact congrArg Prod.snd (ha'.trans hb'.symm)
    · exfalso
      have hm : m ∈ rest.map Prod.fst := by
        simpa using List.mem_map_of_mem Prod.fst hb'
      have he1 : e.1 = m := by rw [← ha']
      exact hkey (by rw [he1]; exact hm)
    · exfalso
      have hm : m ∈ rest.map Prod.fst := by
        simpa using List.mem_map_of_mem Prod.fst ha'
      have he1 : e.1 = m := by rw [← hb']
      exact hkey (by rw [he1]; exact hm)
    · exact ih hnd' ha' hb'

/-! ### Wellformedness of the built graph -/

/-- Wellformedness of the dependency graph: distinct keys, duplicate-free
dependency lists whose members are keys again. -/
structure GraphWF (g0 : Graph) : Prop where
  keysNodup : (g0.map Prod.fst).Nodup
  depsNodup : ∀ m es, (m, es) ∈ g0 → es.Nodup
  depsKeys : ∀ m es, (m, es) ∈ g0 → ∀ e ∈ es, e ∈ g0.map Prod.fst

theorem buildGraph_keys (exts : List (Path × Metadata)) :
    (buildGraph exts).map Prod.fst = exts.map Prod.fst := by
  simp [buildGraph, List.map_map]

theorem buildGraph_mem {exts : List (Path × Metadata)} {m : Path} {es : List Path}
    (h : (m, es) ∈ buildGraph exts) :
    ∃ md, (m, md) ∈ exts ∧
      es = ((exts.filter (fun e => decide (e.1 ≠ m))).filter
              (fun e => providesReq md e.2)).map Prod.fst := by
  obtain ⟨u, hu, heq⟩ := List.mem_map.mp h
  have h1 : u.1 = m := congrArg Prod.fst heq
  refine ⟨u.2, by rw [show (m, u.2) = u by cases u; cases h1; rfl]; exact hu, ?_⟩
  have h2 := congrArg Prod.snd heq
  simpa [h1] using h2.symm

theorem buildGraph_wf {exts : List (Path × Metadata)}
    (hnd : (exts.map Prod.fst).Nodup) : GraphWF (buildGraph exts) := by
  refine ⟨?_, ?_, ?_⟩
  · rw [buildGraph_keys]
    exact hnd
  · intro m es h
    obtain ⟨md, _, hes⟩ := buildGraph_mem h
    rw [hes]
    have hsub : List.Sublist ((exts.filter (fun e => decide (e.1 ≠ m))).filter
        (fun e => providesReq md e.2)) exts :=
      (List.filter_sublist _).trans (List.filter_sublist _)
    exact hnd.sublist (hsub.map Prod.fst)
  · intro m es h e he
    obtain ⟨md, _, hes⟩ := buildGraph_mem h
    rw [hes] at he
    obtain ⟨x, hx, hxe⟩ := List.mem_map.mp he
    have hxexts : x ∈ exts := (List.filter_sublist _).subset ((List.filter_sublist _).subset hx)
    rw [buildGraph_keys, ← hxe]
    exact List.mem_map_of_mem Prod.fst hxexts

/-! ### The Kahn loop invariant -/

/-- Invariant of the `while queue:` loop of `load_order`, relative to the
initially built graph `g0`:
the current graph is `g0` with all scheduled targets filtered out;
`order` and `queue` are disjoint duplicate-free key lists;
queued nodes have all their dependencies already scheduled;
scheduled nodes had all their dependencies scheduled strictly earlier;
untouched nodes still have an unscheduled dependency. -/
structure KahnInv (g0 g : Graph) (order queue : List Path) : Prop where
  graphEq : g = g0.map (fun e => (e.1, e.2.filter (fun p => decide (p ∉ order))))
  nodupOQ : (order ++ queue).Nodup
  orderKeys : ∀ p ∈ order, p ∈ g0.map Prod.fst
  queueKeys : ∀ q ∈ queue, q ∈ g0.map Prod.fst
  queueDone : ∀ q ∈ queue, ∀ es, (q, es) ∈ g0 → ∀ e ∈ es, e ∈ order
  topo : ∀ d ∈ order, ∀ es, (d, es) ∈ g0 → ∀ e ∈ es, e ∈ order ∧ idx order e < idx order d
  pending : ∀ m es, (m, es) ∈ g0 → m ∉ order → m ∉ queue → ∃ e ∈ es, e ∉ order

theorem kahnInv_mem_graph {g0 g : Graph} {order queue : List Path}
    (inv : KahnInv g0 g order queue) {m : Path} {es : List Path} (h : (m, es) ∈ g0) :
    (m, es.filter (fun p => decide (p ∉ order))) ∈ g := by
  rw [inv.graphEq]
  exact List.mem_map_of_mem _ h

theorem newly_mem {g0 g : Graph} {order queue : List Path} {n : Path}
    (_wf : GraphWF g0) (inv : KahnInv g0 g order queue) {m : Path} :
    m ∈ (eraseStep n g).2 ↔
      ∃ es0, (m, es0) ∈ g0 ∧ es0.filter (fun p => decide (p ∉ order)) = [n] := by
  rw [eraseStep_snd]
  constructor
  · intro h
    obtain ⟨e, he, heq⟩ := List.mem_map.mp h
    have hef := List.mem_filter.mp he
    have heg : e ∈ g := hef.1
    have hen : e.2 = [n] := by simpa using hef.2
    rw [inv.graphEq] at heg
    obtain ⟨e0, he0, heq0⟩ := List.mem_map.mp heg
    have h1 : e0.1 = m := by
      have h1a : e0.1 = e.1 := by
        have := congrArg Prod.fst heq0
        simpa using this
      exact h1a.trans heq
    have h2 : e0.2.filter (fun p => decide (p ∉ order)) = [n] := by
      have h2a : e0.2.filter (fun p => decide (p ∉ order)) = e.2 := by
        have := congrArg Prod.snd heq0
        simpa using this
      exact h2a.trans hen
    exact ⟨e0.2, by rw [show (m, e0.2) = e0 by cases e0; cases h1; rfl]; exact he0, h2⟩
  · rintro ⟨es0, h0, hf⟩
    have hg : (m, [n]) ∈ g := by
      rw [← hf]
      exact kahnInv_mem_graph inv h0
    exact List.mem_map.mpr ⟨(m, [n]), List.mem_filter.mpr ⟨hg, by simp⟩, rfl⟩

theorem kahnInv_step {g0 g : Graph} {order queue : List Path} {n : Path}
    (wf : GraphWF g0) (inv : KahnInv g0 g order queue) (hlast : queue.getLast? = some n) :
    KahnInv g0 (eraseStep n g).1 (order ++ [n]) (queue.dropLast ++ (eraseStep n g).2) := by
  have hq : queue = queue.dropLast ++ [n] := getLast?_decomp hlast
  have hnq : n ∈ queue := by
    rw [hq]
    simp
  obtain ⟨hOnd, hQnd, hdisj⟩ := List.nodup_append.mp inv.nodupOQ
  have hnO : n ∉ order := fun hc => hdisj hc hnq
  have hdlNd : queue.dropLast.Nodup ∧ n ∉ queue.dropLast := by
    have := hq ▸ hQnd
    obtain ⟨h1, _, h3⟩ := List.nodup_append.mp this
    exact ⟨h1, fun hc => h3 hc (by simp)⟩
  have hdlSub : ∀ a ∈ queue.dropLast, a ∈ queue := by
    intro a ha
    rw [hq]
    exact List.mem_append_left _ ha
  have hnewly : ∀ {m}, m ∈ (eraseStep n g).2 →
      ∃ es0, (m, es0) ∈ g0 ∧ es0.filter (fun p => decide (p ∉ order)) = [n] :=
    fun hm => (newly_mem wf inv).mp hm
  have hnewlyNotOrder : ∀ m ∈ (eraseStep n g).2, m ∉ order := by
    intro m hm hmo
    obtain ⟨es0, h0, hf⟩ := hnewly hm
    have htp := inv.topo m hmo es0 h0
    have hfe : es0.filter (fun p => decide (p ∉ order)) = [] :=
      List.filter_eq_nil_iff.mpr (fun e he => by simpa using (htp e he).1)
    rw [hf] at hfe
    cases hfe
  have hnewlyNotQueue : ∀ m ∈ (eraseStep n g).2, m ∉ queue := by
    intro m hm hmq
    obtain ⟨es0, h0, hf⟩ := hnewly hm
    have hqd := inv.queueDone m hmq es0 h0
    have hfe : es0.filter (fun p => decide (p ∉ order)) = [] :=
      List.filter_eq_nil_iff.mpr (fun e he => by simpa using hqd e he)
    rw [hf] at hfe
    cases hfe
  have hnewlyKeys : ∀ m ∈ (eraseStep n g).2, m ∈ g0.map Prod.fst := by
    intro m hm
    obtain ⟨es0, h0, _⟩ := hnewly hm
    exact List.mem_map_of_mem Prod.fst h0
  have hnewlyNodup : (eraseStep n g).2.Nodup := by
    rw [eraseStep_snd]
    have hgkeys : (g.map Prod.fst).Nodup := by
      rw [inv.graphEq, List.map_map]
      exact wf.keysNodup
    exact hgkeys.sublist ((List.filter_sublist g).map Prod.fst)
  refine ⟨?_, ?_, ?_, ?_, ?_, ?_, ?_⟩
  · -- graphEq
    rw [eraseStep_fst, inv.graphEq, List.map_map]
    apply mapCongrMem
    intro e he
    have hnd_es : e.2.Nodup := wf.depsNodup e.1 e.2 he
    simp only [Function.comp_apply]
    rw [filter_notMem_append order hnd_es hnO]
  · -- nodupOQ
    apply List.nodup_append.mpr
    refine ⟨?_, ?_, ?_⟩
    · apply List.nodup_append.mpr
      refine ⟨hOnd, List.nodup_singleton n, ?_⟩
      intro a ha hb
      rw [List.mem_singleton.mp hb] at ha
      exact hnO ha
    · apply List.nodup_append.mpr
      refine ⟨hdlNd.1, hnewlyNodup, ?_⟩
      intro a ha hb
      exact hnewlyNotQueue a hb (hdlSub a ha)
    · intro a ha hb
      rcases List.mem_append.mp ha with ha' | ha' <;>
        rcases List.mem_append.mp hb with hb' | hb'
      · exact hdisj ha' (hdlSub a hb')
      · exact hnewlyNotOrder a hb' ha'
      · rw [List.mem_singleton.mp ha'] at hb'
        exact hdlNd.2 hb'
      · rw [List.mem_singleton.mp ha'] at hb'
        exact hnewlyNotQueue n hb' hnq
  · -- orderKeys
    intro p hp
    rcases List.mem_append.mp hp with hp' | hp'
    · exact inv.orderKeys p hp'
    · rw [List.mem_singleton.mp hp']
      exact inv.queueKeys n hnq
  · -- queueKeys
    intro q hq'
    rcases List.mem_append.mp hq' with h' | h'
    · exact inv.queueKeys q (hdlSub q h')
    · exact hnewlyKeys q h'
  · -- queueDone
    intro q hq' es hes e he
    rcases List.mem_append.mp hq' with h' | h'
    · exact List.mem_append_left _ (inv.queueDone q (hdlSub q h') es hes e he)
    · obtain ⟨es0, h0, hf⟩ := hnewly h'
      have hesu : es = es0 := assoc_uniq wf.keysNodup hes h0
      subst hesu
      by_cases heo : e ∈ order
      · exact List.mem_append_left _ heo
      · have : e ∈ es.filter (fun p => decide (p ∉ order)) :=
          List.mem_filter.mpr ⟨he, by simpa using heo⟩
        rw [hf] at this
        rw [List.mem_singleton.mp this]
        simp
  · -- topo
    intro d hd es hes e he
    rcases List.mem_append.mp hd with hd' | hd'
    · obtain ⟨h1, h2⟩ := inv.topo d hd' es hes e he
      refine ⟨List.mem_append_left _ h1, ?_⟩
      rw [idx_append_left h1, idx_append_left hd']
      exact h2
    · have hdn : d = n := List.mem_singleton.mp hd'
      subst hdn
      have heo : e ∈ order := inv.queueDone d hnq es hes e he
      refine ⟨List.mem_append_left _ heo, ?_⟩
      rw [idx_append_left heo, idx_append_self hnO]
      exact idx_lt_length heo
  · -- pending
    intro m es hes hmO hmQ
    have hmo : m ∉ order := fun hc => hmO (List.mem_append_left _ hc)
    have hmn : m ≠ n := fun hc => hmO (by rw [hc]; simp)
    have hmdl : m ∉ queue.dropLast := fun hc => hmQ (List.mem_append_left _ hc)
    have hmq : m ∉ queue := by
      rw [hq]
      intro hc
      rcases List.mem_append.mp hc with h' | h'
      · exact hmdl h'
      · exact hmn (List.mem_singleton.mp h')
    have hmnew : m ∉ (eraseStep n g).2 := fun hc => hmQ (List.mem_append_right _ hc)
    obtain ⟨e, he, heo⟩ := inv.pending m es hes hmo hmq
    have hl0 : es.filter (fun p => decide (p ∉ order)) ≠ [] := by
      intro hc
      have : e ∈ es.filter (fun p => decide (p ∉ order)) :=
        List.mem_filter.mpr ⟨he, by simpa using heo⟩
      rw [hc] at this
      cases this
    have hl1 : es.filter (fun p => decide (p ∉ order)) ≠ [n] := by
      intro hc
      exact hmnew ((newly_mem wf inv).mpr ⟨es, hes, hc⟩)
    have hlnd : (es.filter (fun p => decide (p ∉ order))).Nodup :=
      (wf.depsNodup m es hes).filter _
    obtain ⟨e', he', hne⟩ := exists_ne_of_ne_singleton hlnd hl0 hl1
    have hf := List.mem_filter.mp he'
    refine ⟨e', hf.1, ?_⟩
    intro hc
    rcases List.mem_append.mp hc with h' | h'
    · exact (by simpa using hf.2 : e' ∉ order) h'
    · exact hne (List.mem_singleton.mp h')

/-- The invariant holds on entry to the loop: empty order, the freshly built
graph, and the queue of nodes with no dependencies. -/
theorem kahnInv_init {g0 : Graph} (wf : GraphWF g0) :
    KahnInv g0 g0 [] ((g0.filter (fun e => decide (e.2 = []))).map Prod.fst) := by
  refine ⟨?_, ?_, ?_, ?_, ?_, ?_, ?_⟩
  · calc g0 = g0.map id := by rw [List.map_id]
      _ = g0.map (fun e => (e.1, e.2.filter (fun p => decide (p ∉ ([] : List Path))))) := by
        apply mapCongrMem
        intro a _
        simp
  · simp only [List.nil_append]
    exact wf.keysNodup.sublist ((List.filter_sublist g0).map Prod.fst)
  · intro p hp
    cases hp
  · intro q hq
    obtain ⟨e, he, heq⟩ := List.mem_map.mp hq
    rw [← heq]
    exact List.mem_map_of_mem Prod.fst ((List.filter_sublist g0).subset he)
  · intro q hq es hes e he
    obtain ⟨e0, he0, heq⟩ := List.mem_map.mp hq
    have he0f := List.mem_filter.mp he0
    have h0 : (q, e0.2) ∈ g0 := by
      rw [show (q, e0.2) = e0 by cases e0; cases heq; rfl]
      exact he0f.1
    have : es = e0.2 := assoc_uniq wf.keysNodup hes h0
    rw [this] at he
    rw [show e0.2 = [] by simpa using he0f.2] at he
    cases he
  · intro d hd
    cases hd
  · intro m es hes hmO hmQ
    have hne : es ≠ [] := by
      intro hc
      subst hc
      exact hmQ (List.mem_map.mpr ⟨(m, []), List.mem_filter.mpr ⟨hes, by simp⟩, rfl⟩)
    obtain ⟨e, he⟩ := List.exists_mem_of_ne_nil es hne
    exact ⟨e, he, by simp⟩

/-- Running the Kahn loop with fuel at least `queue.length + totalEdges g`
terminates with an empty queue and the invariant intact. -/
theorem kahnLoop_spec {g0 : Graph} (wf : GraphWF g0) :
    ∀ (fuel : Nat) (g : Graph) (queue order : List Path),
      KahnInv g0 g order queue → queue.length + totalEdges g ≤ fuel →
      ∃ orderF gF, kahnLoop fuel g queue order = (orderF, gF) ∧ KahnInv g0 gF orderF [] := by
  intro fuel
  induction fuel with
  | zero =>
    intro g queue order inv hm
    have hq : queue = [] := List.length_eq_zero.mp (by omega)
    subst hq
    exact ⟨order, g, rfl, inv⟩
  | succ fuel' ih =>
    intro g queue order inv hm
    cases hlast : queue.getLast? with
    | none =>
      have hq : queue = [] := by
        cases queue with
        | nil => rfl
        | cons x t =>
          exfalso
          have h1 : (x :: t).getLast?.isSome := List.getLast?_isSome.mpr (by simp)
          rw [hlast] at h1
          cases h1
      subst hq
      exact ⟨order, g, by simp [kahnLoop], inv⟩
    | some n =>
      have hqne : queue ≠ [] := by
        intro hc
        rw [hc] at hlast
        cases hlast
      have heq : kahnLoop (fuel' + 1) g queue order =
          kahnLoop fuel' (eraseStep n g).1 (queue.dropLast ++ (eraseStep n g).2)
            (order ++ [n]) := by
        simp only [kahnLoop, hlast]
      have inv' := kahnInv_step wf inv hlast
      have hlen : queue.dropLast.length + 1 = queue.length := by
        have h1 : queue.length - 1 = queue.dropLast.length := (List.length_dropLast queue).symm
        have h2 : 0 < queue.length := List.length_pos.mpr hqne
        omega
      have hmeas := eraseStep_measure n g
      have hm' : (queue.dropLast ++ (eraseStep n g).2).length
          + totalEdges (eraseStep n g).1 ≤ fuel' := by
        rw [List.length_append]
        omega
      obtain ⟨orderF, gF, hrun, invF⟩ := ih (eraseStep n g).1
        (queue.dropLast ++ (eraseStep n g).2) (order ++ [n]) inv' hm'
      exact ⟨orderF, gF, heq.trans hrun, invF⟩

/-- In a finite set where every element has an outgoing edge back into the
set, some element lies on a cycle of the relation. -/
theorem cycle_of_closed {E : Path → Path → Prop} :
    ∀ (n : Nat) (R : Finset Path), R.card ≤ n → R.Nonempty →
      (∀ m ∈ R, ∃ e ∈ R, E m e) → ∃ u, Relation.TransGen E u u := by
  intro n
  induction n with
  | zero =>
    intro R hcard hne _
    obtain ⟨x, hx⟩ := hne
    have := Finset.card_pos.mpr ⟨x, hx⟩
    omega
  | succ n ih =>
    intro R hcard hne hcl
    obtain ⟨x, hx⟩ := hne
    classical
    by_cases hxS : x ∈ R.filter (fun y => Relation.TransGen E x y)
    · exact ⟨x, (Finset.mem_filter.mp hxS).2⟩
    · obtain ⟨e, heR, hxe⟩ := hcl x hx
      have heS : e ∈ R.filter (fun y => Relation.TransGen E x y) :=
        Finset.mem_filter.mpr ⟨heR, Relation.TransGen.single hxe⟩
      have hSsub : R.filter (fun y => Relation.TransGen E x y) ⊆ R.erase x := by
        intro y hy
        exact Finset.mem_erase.mpr ⟨fun hc => hxS (hc ▸ hy), (Finset.mem_filter.mp hy).1⟩
      have hScard : (R.filter (fun y => Relation.TransGen E x y)).card ≤ n := by
        have h1 : (R.erase x).card < R.card := Finset.card_erase_lt_of_mem hx
        have h2 := Finset.card_le_card hSsub
        omega
      apply ih _ hScard ⟨e, heS⟩
      intro m hm
      obtain ⟨hmR, hxm⟩ := Finset.mem_filter.mp hm
      obtain ⟨e', he'R, hme'⟩ := hcl m hmR
      exact ⟨e', Finset.mem_filter.mpr ⟨he'R, hxm.tail hme'⟩, hme'⟩

/-- A rank function strictly decreasing along edges certifies acyclicity. -/
theorem acyclic_of_rank {E : Path → Path → Prop} (rank : Path → Nat)
    (h : ∀ a b, E a b → rank b < rank a) : ∀ u, ¬ Relation.TransGen E u u := by
  intro u hc
  have key : ∀ a b, Relation.TransGen E a b → rank b < rank a := by
    intro a b htg
    induction htg with
    | single h1 => exact h _ _ h1
    | tail _ h2 ih => exact (h _ _ h2).trans ih
  exact absurd (key u u hc) (lt_irrefl _)

/-- The dependency relation recorded by `load_order`'s graph:
`DependsOn exts d e` means `d` must load after `e` (some entry of
`d.requires` equals `e.source` or occurs in `e.implements`). -/
def DependsOn (exts : List (Path × Metadata)) (d e : Path) : Prop :=
  ∃ es, (d, es) ∈ buildGraph exts ∧ e ∈ es

/-- C1: for every batch of descriptors (with distinct paths, as the Python
dict keying assumes) whose dependency graph is acyclic, `load_order` returns
an order in which, for every recorded edge d→e (an entry of `d.requires`
matches `e.source` or `e.implements`), `e` appears strictly before `d`. -/
theorem load_order_topological (exts : List (Path × Metadata))
    (hnd : (exts.map Prod.fst).Nodup)
    (hacyc : ∀ u, ¬ Relation.TransGen (DependsOn exts) u u) :
    ∃ order, load_order exts = .ok order ∧
      ∀ d e, DependsOn exts d e → d ∈ order ∧ e ∈ order ∧ idx order e < idx order d := by
  have wf := buildGraph_wf hnd
  have hspec := kahnLoop_spec wf
    ((((buildGraph exts).filter (fun pr => decide (pr.2 = []))).map Prod.fst).length
      + totalEdges (buildGraph exts))
    (buildGraph exts)
    (((buildGraph exts).filter (fun pr => decide (pr.2 = []))).map Prod.fst)
    [] (kahnInv_init wf) (le_refl _)
  obtain ⟨orderF, gF, hrun, invF⟩ := hspec
  have hall : ∀ p ∈ (buildGraph exts).map Prod.fst, p ∈ orderF := by
    by_contra hc
    push_neg at hc
    obtain ⟨p0, hp0k, hp0o⟩ := hc
    classical
    have hcyc := cycle_of_closed (E := DependsOn exts)
      ((((buildGraph exts).map Prod.fst).filter (fun p => decide (p ∉ orderF))).toFinset.card)
      ((((buildGraph exts).map Prod.fst).filter (fun p => decide (p ∉ orderF))).toFinset)
      (le_refl _)
      ⟨p0, by
        simp only [List.mem_toFinset, List.mem_filter, decide_eq_true_eq]
        exact ⟨hp0k, hp0o⟩⟩
      (by
        intro m hm
        simp only [List.mem_toFinset, List.mem_filter, decide_eq_true_eq] at hm
        obtain ⟨hmk, hmo⟩ := hm
        obtain ⟨es, hes⟩ := assoc_key_mem hmk
        obtain ⟨e, he, heo⟩ := invF.pending m es hes hmo (List.not_mem_nil m)
        refine ⟨e, ?_, ⟨es, hes, he⟩⟩
        simp only [List.mem_toFinset, List.mem_filter, decide_eq_true_eq]
        exact ⟨wf.depsKeys m es hes e he, heo⟩)
    obtain ⟨u, hu⟩ := hcyc
    exact hacyc u hu
  have hempty : ∀ e ∈ gF, e.2 = [] := by
    intro e he
    rw [invF.graphEq] at he
    obtain ⟨e0, he0, heq0⟩ := List.mem_map.mp he
    have hfe : e0.2.filter (fun p => decide (p ∉ orderF)) = [] := by
      apply List.filter_eq_nil_iff.mpr
      intro a ha
      have hak : a ∈ (buildGraph exts).map Prod.fst := wf.depsKeys e0.1 e0.2 he0 a ha
      simp only [decide_eq_true_eq, not_not]
      exact hall a hak
    rw [← heq0]
    exact hfe
  have hcheck : gF.any (fun e => !e.2.isEmpty) = false := by
    apply List.any_eq_false.mpr
    intro e he
    rw [hempty e he]
    simp
  refine ⟨orderF, ?_, ?_⟩
  · simp only [load_order]
    rw [hrun]
    simp [hcheck]
  · intro d e hde
    obtain ⟨es, hes, he⟩ := hde
    have hd : d ∈ orderF := hall d (List.mem_map_of_mem Prod.fst hes)
    obtain ⟨h1, h2⟩ := invF.topo d hd es hes e he
    exact ⟨hd, h1, h2⟩

/-- C2: for every batch (with distinct paths) whose hard-dependency graph
contains a directed cycle, `load_order` raises the dependency-cycle error
carrying the residual graph — whose keys are all the descriptors, including
the cycle — and returns no order at all. -/
theorem load_order_cycle_error (exts : List (Path × Metadata))
    (hnd : (exts.map Prod.fst).Nodup) (u : Path)
    (hcyc : Relation.TransGen (DependsOn exts) u u) :
    ∃ g, load_order exts = .error g ∧ g.map Prod.fst = exts.map Prod.fst ∧
      ∃ p es, (p, es) ∈ g ∧ es ≠ [] := by
  have wf := buildGraph_wf hnd
  have hspec := kahnLoop_spec wf
    ((((buildGraph exts).filter (fun pr => decide (pr.2 = []))).map Prod.fst).length
      + totalEdges (buildGraph exts))
    (buildGraph exts)
    (((buildGraph exts).filter (fun pr => decide (pr.2 = []))).map Prod.fst)
    [] (kahnInv_init wf) (le_refl _)
  obtain ⟨orderF, gF, hrun, invF⟩ := hspec
  have hukey : u ∈ (buildGraph exts).map Prod.fst := by
    cases hcyc with
    | single h1 =>
      obtain ⟨es, hes, _⟩ := h1
      exact List.mem_map_of_mem Prod.fst hes
    | tail _ h2 =>
      obtain ⟨es, hes, hu⟩ := h2
      exact wf.depsKeys _ es hes u hu
  have htopo : ∀ d e, Relation.TransGen (DependsOn exts) d e → d ∈ orderF →
      e ∈ orderF ∧ idx orderF e < idx orderF d := by
    intro d e htg
    induction htg with
    | single h1 =>
      intro hd
      obtain ⟨es, hes, he⟩ := h1
      exact invF.topo d hd es hes _ he
    | tail _ h2 ih =>
      intro hd
      obtain ⟨hb, hib⟩ := ih hd
      obtain ⟨es, hes, he⟩ := h2
      obtain ⟨h3, h4⟩ := invF.topo _ hb es hes _ he
      exact ⟨h3, h4.trans hib⟩
  have huno : u ∉ orderF := by
    intro hc
    obtain ⟨_, hlt⟩ := htopo u u hcyc hc
    exact absurd hlt (lt_irrefl _)
  obtain ⟨es0, hes0⟩ := assoc_key_mem hukey
  obtain ⟨e, he, heo⟩ := invF.pending u es0 hes0 huno (List.not_mem_nil u)
  have hresid : (u, es0.filter (fun p => decide (p ∉ orderF))) ∈ gF := by
    rw [invF.graphEq]
    exact List.mem_map_of_mem _ hes0
  have hne : es0.filter (fun p => decide (p ∉ orderF)) ≠ [] := by
    intro hc
    have hmem : e ∈ es0.filter (fun p => decide (p ∉ orderF)) :=
      List.mem_filter.mpr ⟨he, by simpa using heo⟩
    rw [hc] at hmem
    cases hmem
  have hcheck : gF.any (fun e => !e.2.isEmpty) = true := by
    apply List.any_eq_true.mpr
    exact ⟨(u, es0.filter (fun p => decide (p ∉ orderF))), hresid, by simpa using hne⟩
  refine ⟨gF, ?_, ?_, ⟨u, _, hresid, hne⟩⟩
  · simp only [load_order]
    rw [hrun]
    simp [hcheck]
  · rw [invF.graphEq, List.map_map]
    exact buildGraph_keys exts

/-- Scenario 1 of the spec: a core extension and a plugin requiring it. -/
def exScenario1 : List (Path × Metadata) :=
  [("./extensions/core", mkMd "core" "core" [] [] []),
   ("./extensions/plugin-a", mkMd "plugin-a" "plugin-a" ["core"] [] [])]

/-- Witness for C1: the theorem applied to Scenario 1, whose graph is
acyclic by the rank certificate core ↦ 0, plugin-a ↦ 1. -/
theorem load_order_topological_witness :
    ∃ order, load_order exScenario1 = .ok order ∧
      ∀ d e, DependsOn exScenario1 d e →
        d ∈ order ∧ e ∈ order ∧ idx order e < idx order d := by
  apply load_order_topological exScenario1 (by decide)
  apply acyclic_of_rank (fun p => if p = "./extensions/plugin-a" then 1 else 0)
  intro a b hab
  obtain ⟨es, hes, hb⟩ := hab
  have hg : buildGraph exScenario1 =
      [("./extensions/core", []), ("./extensions/plugin-a", ["./extensions/core"])] := by
    decide
  rw [hg] at hes
  rcases List.mem_cons.mp hes with h | h
  · have hes2 : es = [] := congrArg Prod.snd h
    rw [hes2] at hb
    cases hb
  · rcases List.mem_cons.mp h with h2 | h2
    · have ha : a = "./extensions/plugin-a" := congrArg Prod.fst h2
      have hes2 : es = ["./extensions/core"] := congrArg Prod.snd h2
      rw [hes2] at hb
      have hbv : b = "./extensions/core" := List.mem_singleton.mp hb
      rw [ha, hbv]
      decide
    · cases h2

/-- Scenario 2 of the spec: two extensions requiring each other. -/
def exScenario2 : List (Path × Metadata) :=
  [("./extensions/x", mkMd "x" "x" ["y"] [] []),
   ("./extensions/y", mkMd "y" "y" ["x"] [] [])]

/-- Witness for C2: the theorem applied to Scenario 2, with the explicit
two-edge cycle x→y→x. -/
theorem load_order_cycle_error_witness :
    ∃ g, load_order exScenario2 = .error g ∧
      g.map Prod.fst = exScenario2.map Prod.fst ∧ ∃ p es, (p, es) ∈ g ∧ es ≠ [] := by
  apply load_order_cycle_error exScenario2 (by decide) "./extensions/x"
  have h1 : DependsOn exScenario2 "./extensions/x" "./extensions/y" :=
    ⟨["./extensions/y"], by decide, by decide⟩
  have h2 : DependsOn exScenario2 "./extensions/y" "./extensions/x" :=
    ⟨["./extensions/x"], by decide, by decide⟩
  exact Relation.TransGen.tail (Relation.TransGen.single h1) h2

/-! ### Python dict embedding (insertion-ordered, replace-in-place update) -/

/-- `d[k] = v` on a Python dict: replace in place when the key exists,
append otherwise. -/
def dictInsert {α : Type} (d : List (String × α)) (k : String) (v : α) :
    List (String × α) :=
  if d.any (fun e => decide (e.1 = k)) then
    d.map (fun e => if e.1 = k then (k, v) else e)
  else d ++ [(k, v)]

/-- A Python dict comprehension over a list of key/value pairs: later
occurrences of a key overwrite earlier ones in place. -/
def dictOf {α : Type} (l : List (String × α)) : List (String × α) :=
  l.foldl (fun d e => dictInsert d e.1 e.2) []

theorem dictInsert_of_not_mem {α : Type} {d : List (String × α)} {k : String} (v : α)
    (h : k ∉ d.map Prod.fst) : dictInsert d k v = d ++ [(k, v)] := by
  have hany : d.any (fun e => decide (e.1 = k)) = false := by
    apply List.any_eq_false.mpr
    intro e he
    simp only [decide_eq_true_eq]
    intro hc
    exact h (hc ▸ List.mem_map_of_mem Prod.fst he)
  simp [dictInsert, hany]

theorem dictOf_eq_self_aux {α : Type} :
    ∀ (l acc : List (String × α)), (acc.map Prod.fst ++ l.map Prod.fst).Nodup →
      l.foldl (fun d e => dictInsert d e.1 e.2) acc = acc ++ l := by
  intro l
  induction l with
  | nil =>
    intro acc _
    simp
  | cons e rest ih =>
    intro acc hnd
    have hkey : e.1 ∉ acc.map Prod.fst := by
      intro hc
      obtain ⟨_, _, hdisj⟩ := List.nodup_append.mp hnd
      exact hdisj hc (by simp)
    have hstep : dictInsert acc e.1 e.2 = acc ++ [e] := by
      rw [dictInsert_of_not_mem e.2 hkey]
    have hnd' : ((acc ++ [e]).map Prod.fst ++ rest.map Prod.fst).Nodup := by
      have : acc.map Prod.fst ++ (e :: rest).map Prod.fst
          = (acc ++ [e]).map Prod.fst ++ rest.map Prod.fst := by
        simp
      rw [← this]
      exact hnd
    calc (e :: rest).foldl (fun d e => dictInsert d e.1 e.2) acc
        = rest.foldl (fun d e => dictInsert d e.1 e.2) (acc ++ [e]) := by
          simp [List.foldl_cons, hstep]
      _ = (acc ++ [e]) ++ rest := ih (acc ++ [e]) hnd'
      _ = acc ++ e :: rest := by simp

/-- When the keys are pairwise distinct, a Python dict comprehension keeps
the list unchanged. -/
theorem dictOf_eq_self {α : Type} {l : List (String × α)}
    (hnd : (l.map Prod.fst).Nodup) : dictOf l = l := by
  have := dictOf_eq_self_aux l [] (by simpa using hnd)
  simpa [dictOf] using this

theorem dictInsert_mem {α : Type} {d : List (String × α)} {k : String} {v : α}
    {e : String × α} (h : e ∈ dictInsert d k v) : e ∈ d ∨ e = (k, v) := by
  unfold dictInsert at h
  by_cases hany : d.any (fun e => decide (e.1 = k)) = true
  · rw [if_pos hany] at h
    obtain ⟨e0, he0, heq⟩ := List.mem_map.mp h
    by_cases hk : e0.1 = k
    · right
      rw [← heq, if_pos hk]
    · left
      rw [← heq, if_neg hk]
      exact he0
  · rw [if_neg hany] at h
    rcases List.mem_append.mp h with h' | h'
    · exact Or.inl h'
    · exact Or.inr (List.mem_singleton.mp h')

theorem dictOf_mem_aux {α : Type} :
    ∀ (l acc : List (String × α)) (e : String × α),
      e ∈ l.foldl (fun d x => dictInsert d x.1 x.2) acc → e ∈ acc ∨ e ∈ l := by
  intro l
  induction l with
  | nil =>
    intro acc e h
    exact Or.inl (by simpa using h)
  | cons x rest ih =>
    intro acc e h
    simp only [List.foldl_cons] at h
    rcases ih (dictInsert acc x.1 x.2) e h with h' | h'
    · rcases dictInsert_mem h' with h'' | h''
      · exact Or.inl h''
      · right
        rw [h'']
        cases x
        simp
    · right
      exact List.mem_cons_of_mem x h'

/-- Every entry of a Python dict comprehension comes from the original
pair list. -/
theorem dictOf_mem {α : Type} {l : List (String × α)} {e : String × α}
    (h : e ∈ dictOf l) : e ∈ l := by
  rcases dictOf_mem_aux l [] e h with h' | h'
  · cases h'
  · exact h'

/-! ### Extension objects, aliases, lookup (chattyboi/extension.py, extapi) -/

/-- The post-load `Extension` object of chattyboi/extension.py: metadata,
the generated module name, and the runtime-added `_aliases`. -/
structure Ext where
  path : Path
  md : Metadata
  moduleName : String
  extraAliases : List String
deriving DecidableEq

/-- `Extension.aliases` (chattyboi/extension.py 53–55):
`{self.name, self.source, self.module.__name__, *self.implements} | self._aliases`,
as a list read only through membership. -/
def aliasesOf (e : Ext) : List String :=
  e.md.name :: e.md.source :: e.moduleName :: (e.md.implements ++ e.extraAliases)

/-- `Extension.add_alias` (chattyboi/extension.py 57–58):
`self._aliases.add(alias)` — an unconditional set insertion. -/
def addAlias (e : Ext) (a : String) : Ext :=
  if a ∈ e.extraAliases then e else { e with extraAliases := e.extraAliases ++ [a] }

/-- `get_extension` (extapi.py 107–115):
`next((ext for ext in state().extensions if identifier in ext.aliases), None)`. -/
def getExtension (exts : List Ext) (ident : String) : Option Ext :=
  exts.find? (fun e => decide (ident ∈ aliasesOf e))

/-! ### load_all of chattyboi/extension_helper.py (lines 91–111) -/

/-- The errors `load_all` can raise (all `RuntimeError` in the source,
distinguished here by their messages). -/
inductive LoadError where
  | unsatisfied (ext dep : String)
  | duplicate (left right : String) (conflicts : List String)
  | cycle (g : Graph)
  | missingPath (p : Path)
  | execFailure (p : Path)
deriving DecidableEq

/-- `implementations = {md['source']: {md['source']} | set(md['implements']) for md in metadata}` —
a dict keyed by source; a duplicate source silently overwrites the earlier
entry. -/
def implMap (metadata : List Metadata) : List (String × List String) :=
  dictOf (metadata.map (fun md => (md.source, md.source :: md.implements)))

/-- `implemented = set(); for i in implementations.values(): implemented.update(i)` —
the union of the capability sets the dict retained. -/
def implementedUnion (metadata : List Metadata) : List String :=
  ((implMap metadata).map Prod.snd).flatten

/-- `dependencies = {md['name']: set(md['requires']) for md in metadata}` —
a dict keyed by NAME; a duplicate name silently overwrites the earlier
entry's requirement set. -/
def depMap (metadata : List Metadata) : List (String × List String) :=
  dictOf (metadata.map (fun md => (md.name, md.requires.dedup)))

/-- The availability loop of `load_all`: the first (extension name, dep)
pair with `dep not in implemented`, if any. -/
def findUnsatisfied (deps : List (String × List String)) (implemented : List String) :
    Option (String × String) :=
  match deps with
  | [] => none
  | (ext, ds) :: rest =>
    match ds.find? (fun d => decide (d ∉ implemented)) with
    | some d => some (ext, d)
    | none => findUnsatisfied rest implemented

/-- `implementations[left] & implementations[right]` as an ordered list
(read only through membership/emptiness, like the Python set). -/
def conflictsBetween (a b : List String) : List String :=
  a.filter (fun x => decide (x ∈ b))

/-- The duplicate-implementation loop of `load_all`: iterate the ordered
pairs of distinct dict keys (`itertools.product(keys, repeat=2)` filtered by
`left != right`) and return the first pair whose capability sets
intersect. -/
def findCollision (impl : List (String × List String)) :
    Option (String × String × List String) :=
  impl.findSome? (fun l =>
    impl.findSome? (fun r =>
      if l.1 = r.1 then none
      else if conflictsBetween l.2 r.2 = [] then none
      else some (l.1, r.1, conflictsBetween l.2 r.2)))

/-- The Extension object built by `ExtensionHelper.load`: the module name is
`'cbext_' + md5(source)`; the md5 hex digest is abstracted as `md5hex`. -/
def mkExt (md5hex : String → String) (path : Path) (md : Metadata) : Ext :=
  ⟨path, md, "cbext_" ++ md5hex md.source, []⟩

/-- `ExtensionHelper.load` (chattyboi/extension_helper.py 81–89): create the
Extension, append it to `state.extensions`, then execute the module's entry
point — which therefore observes the already-updated list.  Returns the new
list and whether the entry point succeeded (`execOk` is the oracle for the
arbitrary module code). -/
def load (md5hex : String → String) (st : List Ext) (path : Path) (md : Metadata)
    (execOk : Path → List Ext → Bool) : List Ext × Bool :=
  let ext := mkExt md5hex path md
  let st' := st ++ [ext]
  (st', execOk path st')

/-- The final loop of `load_all`:
`for path in self.load_order(zip(paths, metadata)): self.load(path, metadata[paths.index(path)])`.
A raising entry point aborts the loop, leaving every already-appended
extension (including the failing one) in the state. -/
def loadLoop (md5hex : String → String) :
    List Path → List (Path × Metadata) → (Path → List Ext → Bool) → List Ext →
    List Ext × Option LoadError
  | [], _, _, st => (st, none)
  | p :: rest, batch, execOk, st =>
    match batch.find? (fun e => decide (e.1 = p)) with
    | none => (st, some (.missingPath p))
    | some pm =>
      let r := load md5hex st p pm.2 execOk
      if r.2 then loadLoop md5hex rest batch execOk r.1
      else (r.1, some (.execFailure p))

/-- `ExtensionHelper.load_all` (chattyboi/extension_helper.py 91–111), taking
the already-parsed `(path, metadata)` batch: the availability check keyed by
name, the duplicate-implementation check keyed by source, `load_order`, then
the load loop.  Returns the final `state.extensions` and the error, if
any. -/
def load_all (md5hex : String → String) (batch : List (Path × Metadata))
    (execOk : Path → List Ext → Bool) : List Ext × Option LoadError :=
  let metadata := batch.map Prod.snd
  match findUnsatisfied (depMap metadata) (implementedUnion metadata) with
  | some pr => ([], some (.unsatisfied pr.1 pr.2))
  | none =>
    match findCollision (implMap metadata) with
    | some c => ([], some (.duplicate c.1 c.2.1 c.2.2))
    | none =>
      match load_order batch with
      | .error g => ([], some (.cycle g))
      | .ok order => loadLoop md5hex order batch execOk []

/-- The capability set of the spec (§3): `{d.name, d.source} ∪ d.implements`.
Stated from the spec's words, for comparison with the code's
source/implements-only capability sets. -/
def specCapabilities (md : Metadata) : List String :=
  md.name :: md.source :: md.implements

/-- The union of all spec capability sets of a batch. -/
def specCapabilityUnion (batch : List (Path × Metadata)) : List String :=
  (batch.map (fun e => specCapabilities e.2)).flatten

example :
    (load_all (fun s => s)
      [("./extensions/a", mkMd "a" "a" [] [] []),
       ("./extensions/b", mkMd "b" "b" ["a"] [] [])]
      (fun _ _ => true)).2 = none := by decide

example :
    (load_all (fun s => s)
      [("./extensions/needs-x", mkMd "needs-x" "needs-x" ["x"] [] [])]
      (fun _ _ => true)) = ([], some (.unsatisfied "needs-x" "x")) := by decide

example :
    (load_all (fun s => s)
      [("./extensions/a", mkMd "a" "a" [] [] ["chat-iface"]),
       ("./extensions/b", mkMd "b" "b" [] [] ["chat-iface"])]
      (fun _ _ => true)).2 = some (.duplicate "a" "b" ["chat-iface"]) := by decide

/-! ### Characterizations of the check loops -/

theorem findUnsatisfied_none {deps : List (String × List String)}
    {implemented : List String} (h : findUnsatisfied deps implemented = none) :
    ∀ n ds, (n, ds) ∈ deps → ∀ d ∈ ds, d ∈ implemented := by
  induction deps with
  | nil =>
    intro n ds h'
    cases h'
  | cons e rest ih =>
    intro n ds hmem d hd
    obtain ⟨ext, ds0⟩ := e
    simp only [findUnsatisfied] at h
    cases hfind : ds0.find? (fun d => decide (d ∉ implemented)) with
    | some d0 =>
      rw [hfind] at h
      cases h
    | none =>
      rw [hfind] at h
      rcases List.mem_cons.mp hmem with h' | h'
      · have hds : ds = ds0 := congrArg Prod.snd h'
        have := List.find?_eq_none.mp hfind d (hds ▸ hd)
        simpa using this
      · exact ih h n ds h' d hd

theorem findUnsatisfied_some {deps : List (String × List String)}
    {implemented : List String} {n dep : String}
    (h : findUnsatisfied deps implemented = some (n, dep)) :
    ∃ ds, (n, ds) ∈ deps ∧ dep ∈ ds ∧ dep ∉ implemented := by
  induction deps with
  | nil => cases h
  | cons e rest ih =>
    obtain ⟨ext, ds0⟩ := e
    simp only [findUnsatisfied] at h
    cases hfind : ds0.find? (fun d => decide (d ∉ implemented)) with
    | some d0 =>
      rw [hfind] at h
      have hn : ext = n := congrArg Prod.fst (Option.some.inj h)
      have hd : d0 = dep := congrArg Prod.snd (Option.some.inj h)
      refine ⟨ds0, by rw [← hn]; simp, ?_, ?_⟩
      · rw [← hd]
        exact List.mem_of_find?_eq_some hfind
      · have := List.find?_some hfind
        rw [hd] at this
        simpa using this
    | none =>
      rw [hfind] at h
      obtain ⟨ds, h1, h2, h3⟩ := ih h
      exact ⟨ds, List.mem_cons_of_mem _ h1, h2, h3⟩

theorem findCollision_none {impl : List (String × List String)}
    (h : findCollision impl = none) :
    ∀ l ∈ impl, ∀ r ∈ impl, l.1 ≠ r.1 → conflictsBetween l.2 r.2 = [] := by
  intro l hl r hr hne
  have houter := List.findSome?_eq_none_iff.mp h l hl
  have hinner := List.findSome?_eq_none_iff.mp houter r hr
  rw [if_neg hne] at hinner
  by_cases hc : conflictsBetween l.2 r.2 = []
  · exact hc
  · rw [if_neg hc] at hinner
    cases hinner

/-- Inverting a fully successful `load_all`: both validation loops found
nothing. -/
theorem load_all_ok_checks {md5hex : String → String}
    {batch : List (Path × Metadata)} {execOk : Path → List Ext → Bool}
    (h : (load_all md5hex batch execOk).2 = none) :
    findUnsatisfied (depMap (batch.map Prod.snd))
        (implementedUnion (batch.map Prod.snd)) = none ∧
      findCollision (implMap (batch.map Prod.snd)) = none := by
  simp only [load_all] at h
  cases hfu : findUnsatisfied (depMap (batch.map Prod.snd))
      (implementedUnion (batch.map Prod.snd)) with
  | some pr =>
    rw [hfu] at h
    cases h
  | none =>
    rw [hfu] at h
    cases hfc : findCollision (implMap (batch.map Prod.snd)) with
    | some c =>
      rw [hfc] at h
      cases h
    | none => exact ⟨rfl, rfl⟩

/-- The union computed by `load_all` from the source-keyed dict is contained
in the spec's capability union (which additionally has every name). -/
theorem implementedUnion_sub {batch : List (Path × Metadata)} :
    ∀ x ∈ implementedUnion (batch.map Prod.snd), x ∈ specCapabilityUnion batch := by
  intro x hx
  simp only [implementedUnion, List.mem_flatten] at hx
  obtain ⟨vs, hvs, hxvs⟩ := hx
  obtain ⟨kv, hkv, hkveq⟩ := List.mem_map.mp hvs
  have hkv' := dictOf_mem hkv
  obtain ⟨md0, hmd0, hmd0eq⟩ := List.mem_map.mp hkv'
  obtain ⟨e, he, heeq⟩ := List.mem_map.mp hmd0
  simp only [specCapabilityUnion, List.mem_flatten]
  refine ⟨specCapabilities e.2, List.mem_map_of_mem _ he, ?_⟩
  have hvs2 : vs = md0.source :: md0.implements := by
    rw [← hkveq, ← hmd0eq]
  rw [hvs2] at hxvs
  rw [heeq]
  simp only [specCapabilities, List.mem_cons]
  rcases List.mem_cons.mp hxvs with h' | h'
  · exact Or.inr (Or.inl h')
  · exact Or.inr (Or.inr h')

/-- C3 (amended): for a batch whose descriptor names are pairwise distinct,
if some descriptor has a `requires` entry outside the union of all
capability sets, `load_all` fails with the unsatisfied-dependency error —
naming a descriptor (by name) and an unmet entry of its `requires` — before
any extension is instantiated (the state stays empty).  The amendment
restricts the claim to distinct names because the dependency dict is keyed
by name, and records that the error's unmet identity is missing from the
code's source/implements union. -/
theorem load_all_unsatisfied (md5hex : String → String)
    (batch : List (Path × Metadata)) (execOk : Path → List Ext → Bool)
    (hnames : ((batch.map Prod.snd).map Metadata.name).Nodup)
    (p : Path) (md : Metadata) (r : String)
    (hmem : (p, md) ∈ batch) (hr : r ∈ md.requires)
    (hcap : r ∉ specCapabilityUnion batch) :
    ∃ n dep, load_all md5hex batch execOk = ([], some (.unsatisfied n dep)) ∧
      ∃ p' md', (p', md') ∈ batch ∧ md'.name = n ∧ dep ∈ md'.requires ∧
        dep ∉ implementedUnion (batch.map Prod.snd) := by
  have hrimpl : r ∉ implementedUnion (batch.map Prod.snd) :=
    fun hc => hcap (implementedUnion_sub r hc)
  have hkeys : (((batch.map Prod.snd).map
      (fun md => (md.name, md.requires.dedup))).map Prod.fst).Nodup := by
    rw [List.map_map]
    exact hnames
  have hdm : depMap (batch.map Prod.snd)
      = (batch.map Prod.snd).map (fun md => (md.name, md.requires.dedup)) :=
    dictOf_eq_self hkeys
  have hmdmem : md ∈ batch.map Prod.snd := by
    have := List.mem_map_of_mem Prod.snd hmem
    simpa using this
  have hentry : (md.name, md.requires.dedup) ∈ depMap (batch.map Prod.snd) := by
    rw [hdm]
    exact List.mem_map_of_mem _ hmdmem
  have hne : findUnsatisfied (depMap (batch.map Prod.snd))
      (implementedUnion (batch.map Prod.snd)) ≠ none := by
    intro hc
    exact hrimpl (findUnsatisfied_none hc md.name md.requires.dedup hentry r
      (List.mem_dedup.mpr hr))
  cases hfu : findUnsatisfied (depMap (batch.map Prod.snd))
      (implementedUnion (batch.map Prod.snd)) with
  | none => exact absurd hfu hne
  | some pr =>
    obtain ⟨n, dep⟩ := pr
    obtain ⟨ds, hds, hdep, hdepim⟩ := findUnsatisfied_some hfu
    rw [hdm] at hds
    obtain ⟨md', hmd', heq'⟩ := List.mem_map.mp hds
    have hname : md'.name = n := congrArg Prod.fst heq'
    have hds2 : md'.requires.dedup = ds := congrArg Prod.snd heq'
    obtain ⟨e, he, heeq⟩ := List.mem_map.mp hmd'
    have hpm : (e.1, md') ∈ batch := by
      rw [← heeq]
      exact he
    refine ⟨n, dep, ?_, e.1, md', hpm, hname, List.mem_dedup.mp (hds2 ▸ hdep), hdepim⟩
    simp only [load_all]
    rw [hfu]

/-- The batch exposing the counterexample to C3: two descriptors share the
name `N`; the first requires `x`, which nothing provides, but the
name-keyed dependency dict keeps only the second (empty) requirement set. -/
def batchDupName : List (Path × Metadata) :=
  [("./extensions/p1", mkMd "N" "s1" ["x"] [] []),
   ("./extensions/p2", mkMd "N" "s2" [] [] [])]

/-- Counterexample for C3 as stated: descriptor `N`/`s1` requires `x`,
`x` is not in the union of the batch's capability sets, yet `load_all`
raises nothing and loads both extensions. -/
theorem load_all_unsatisfied_counterexample :
    "x" ∈ (mkMd "N" "s1" ["x"] [] []).requires ∧
    "x" ∉ specCapabilityUnion batchDupName ∧
    (load_all (fun s => s) batchDupName (fun _ _ => true)).2 = none ∧
    (load_all (fun s => s) batchDupName (fun _ _ => true)).1 ≠ [] := by decide

/-- Witness for C3 (amended): Scenario 4 — `needs-x` requiring `x` loaded
alone fails with the unsatisfied-dependency error and an empty state. -/
theorem load_all_unsatisfied_witness :
    ∃ n dep,
      load_all (fun s => s)
        [("./extensions/needs-x", mkMd "needs-x" "needs-x" ["x"] [] [])]
        (fun _ _ => true) = ([], some (.unsatisfied n dep)) ∧
      ∃ p' md',
        (p', md') ∈ [("./extensions/needs-x", mkMd "needs-x" "needs-x" ["x"] [] [])] ∧
        md'.name = n ∧ dep ∈ md'.requires ∧
        dep ∉ implementedUnion
          ([("./extensions/needs-x", mkMd "needs-x" "needs-x" ["x"] [] [])].map Prod.snd) :=
  load_all_unsatisfied (fun s => s)
    [("./extensions/needs-x", mkMd "needs-x" "needs-x" ["x"] [] [])]
    (fun _ _ => true) (by decide) "./extensions/needs-x"
    (mkMd "needs-x" "needs-x" ["x"] [] []) "x" (by decide) (by decide) (by decide)

/-- C4 (amended): for every batch with pairwise-distinct sources that
`load_all` completes without error, the capability sets the code checks —
`{d.source} ∪ d.implements` — are pairwise disjoint across the batch.  The
name is not part of the checked sets, so name collisions are not detected
(see the counterexample), and the distinct-source hypothesis is needed
because the collision dict is keyed by source. -/
theorem load_all_accepted_disjoint (md5hex : String → String)
    (batch : List (Path × Metadata)) (execOk : Path → List Ext → Bool)
    (hsrc : ((batch.map Prod.snd).map Metadata.source).Nodup)
    (hok : (load_all md5hex batch execOk).2 = none) :
    (batch.map Prod.snd).Pairwise
      (fun a b => ∀ x, x ∈ a.source :: a.implements → x ∉ b.source :: b.implements) := by
  obtain ⟨-, hcol⟩ := load_all_ok_checks hok
  have hkeys : (((batch.map Prod.snd).map
      (fun md => (md.source, md.source :: md.implements))).map Prod.fst).Nodup := by
    rw [List.map_map]
    exact hsrc
  have himpl : implMap (batch.map Prod.snd)
      = (batch.map Prod.snd).map (fun md => (md.source, md.source :: md.implements)) :=
    dictOf_eq_self hkeys
  have hpair : (batch.map Prod.snd).Pairwise (fun a b => a.source ≠ b.source) := by
    have h1 : ((batch.map Prod.snd).map Metadata.source).Pairwise (fun a b => a ≠ b) := hsrc
    exact (List.pairwise_map.mp h1)
  apply hpair.imp_of_mem
  intro a b ha hb hne x hxa hxb
  have hea : (a.source, a.source :: a.implements) ∈ implMap (batch.map Prod.snd) := by
    rw [himpl]
    exact List.mem_map_of_mem _ ha
  have heb : (b.source, b.source :: b.implements) ∈ implMap (batch.map Prod.snd) := by
    rw [himpl]
    exact List.mem_map_of_mem _ hb
  have hconf := findCollision_none hcol _ hea _ heb hne
  have hx : x ∈ conflictsBetween (a.source :: a.implements) (b.source :: b.implements) :=
    List.mem_filter.mpr ⟨hxa, by simpa using hxb⟩
  rw [hconf] at hx
  cases hx

/-- The batch exposing the counterexample to C4: two descriptors share the
name `N`; `load_all` checks only `{source} ∪ implements`, so it accepts the
batch. -/
def batchDupNameOnly : List (Path × Metadata) :=
  [("./extensions/q1", mkMd "N" "sa" [] [] []),
   ("./extensions/q2", mkMd "N" "sb" [] [] [])]

/-- Counterexample for C4 as stated: `load_all` accepts a batch whose
spec-capability sets `{name, source} ∪ implements` both contain `N` — a
name collision is not detected as fatal. -/
theorem load_all_name_collision_counterexample :
    (load_all (fun s => s) batchDupNameOnly (fun _ _ => true)).2 = none ∧
    "N" ∈ specCapabilities (mkMd "N" "sa" [] [] []) ∧
    "N" ∈ specCapabilities (mkMd "N" "sb" [] [] []) := by decide

/-- Witness for C4 (amended): a two-descriptor batch with distinct sources
that loads successfully has pairwise-disjoint `{source} ∪ implements`
sets. -/
theorem load_all_accepted_disjoint_witness :
    ([("./extensions/w1", mkMd "A" "sa" [] [] ["ia"]),
      ("./extensions/w2", mkMd "B" "sb" [] [] ["ib"])].map Prod.snd).Pairwise
      (fun a b => ∀ x, x ∈ a.source :: a.implements → x ∉ b.source :: b.implements) :=
  load_all_accepted_disjoint (fun s => s)
    [("./extensions/w1", mkMd "A" "sa" [] [] ["ia"]),
     ("./extensions/w2", mkMd "B" "sb" [] [] ["ib"])]
    (fun _ _ => true) (by decide) (by decide)

/-- C5 (amended): collision detection is symmetric — the intersection of two
capability sets is empty one way around iff it is the other way — and it
fires whenever two descriptors with DISTINCT sources share a capability
(in particular any `implements` overlap).  Exact duplicate `source` values
are NOT detected, because the dict of capability sets is keyed by source
and the later descriptor silently overwrites the earlier one (see the
counterexample). -/
theorem collision_symmetric_and_fires :
    (∀ a b : List String, (conflictsBetween a b = [] ↔ conflictsBetween b a = [])) ∧
    (∀ (metadata : List Metadata) (a b : Metadata),
      (metadata.map Metadata.source).Nodup → a ∈ metadata → b ∈ metadata →
      a.source ≠ b.source →
      ∀ x, x ∈ a.source :: a.implements → x ∈ b.source :: b.implements →
      findCollision (implMap metadata) ≠ none) := by
  constructor
  · intro a b
    simp only [conflictsBetween, List.filter_eq_nil_iff, decide_eq_true_eq]
    constructor
    · intro h x hxb hxa
      exact h x hxa hxb
    · intro h x hxa hxb
      exact h x hxb hxa
  · intro metadata a b hsrc ha hb hne x hxa hxb hnone
    have hkeys : ((metadata.map
        (fun md => (md.source, md.source :: md.implements))).map Prod.fst).Nodup := by
      rw [List.map_map]
      exact hsrc
    have himpl : implMap metadata
        = metadata.map (fun md => (md.source, md.source :: md.implements)) :=
      dictOf_eq_self hkeys
    have hea : (a.source, a.source :: a.implements) ∈ implMap metadata := by
      rw [himpl]
      exact List.mem_map_of_mem _ ha
    have heb : (b.source, b.source :: b.implements) ∈ implMap metadata := by
      rw [himpl]
      exact List.mem_map_of_mem _ hb
    have hconf := findCollision_none hnone _ hea _ heb hne
    have hx : x ∈ conflictsBetween (a.source :: a.implements) (b.source :: b.implements) :=
      List.mem_filter.mpr ⟨hxa, by simpa using hxb⟩
    rw [hconf] at hx
    cases hx

/-- The batch exposing the counterexample to C5: two descriptors declare the
exact same `source`; the source-keyed dict collapses them, so no collision
fires and `load_all` accepts the batch. -/
def batchDupSource : List (Path × Metadata) :=
  [("./extensions/r1", mkMd "n1" "s" [] [] []),
   ("./extensions/r2", mkMd "n2" "s" [] [] [])]

/-- Counterexample for C5 as stated: an exact duplicate `source` is not
detected — the collision scan returns nothing and `load_all` succeeds. -/
theorem collision_duplicate_source_counterexample :
    (mkMd "n1" "s" [] [] []).source = (mkMd "n2" "s" [] [] []).source ∧
    findCollision (implMap (batchDupSource.map Prod.snd)) = none ∧
    (load_all (fun s => s) batchDupSource (fun _ _ => true)).2 = none := by decide

/-- Witness for C5 (amended): Scenario 3 — two descriptors implementing
`chat-iface` make the collision scan fire. -/
theorem collision_symmetric_and_fires_witness :
    findCollision (implMap [mkMd "a" "a" [] [] ["chat-iface"],
      mkMd "b" "b" [] [] ["chat-iface"]]) ≠ none :=
  collision_symmetric_and_fires.2
    [mkMd "a" "a" [] [] ["chat-iface"], mkMd "b" "b" [] [] ["chat-iface"]]
    (mkMd "a" "a" [] [] ["chat-iface"]) (mkMd "b" "b" [] [] ["chat-iface"])
    (by decide) (by decide) (by decide) (by decide) "chat-iface" (by decide) (by decide)

/-! ### Alias lookup and mutation (C7, C8, C10) -/

theorem find?_cons_true {α : Type} (p : α → Bool) (a : α) (l : List α) (hp : p a = true) :
    (a :: l).find? p = some a := by
  simp [List.find?_cons, hp]

theorem find?_cons_false {α : Type} (p : α → Bool) (a : α) (l : List α) (hp : p a = false) :
    (a :: l).find? p = l.find? p := by
  simp [List.find?_cons, hp]

theorem mem_aliasesOf_addAlias (e : Ext) (a b : String) :
    b ∈ aliasesOf (addAlias e a) ↔ (b = a ∨ b ∈ aliasesOf e) := by
  by_cases h : a ∈ e.extraAliases
  · simp only [addAlias, if_pos h]
    constructor
    · exact Or.inr
    · rintro (rfl | hb)
      · simp only [aliasesOf, List.mem_cons, List.mem_append]
        exact Or.inr (Or.inr (Or.inr (Or.inr h)))
      · exact hb
  · simp only [addAlias, if_neg h, aliasesOf, List.mem_cons, List.mem_append,
      List.mem_singleton]
    tauto

theorem getExtension_first_match {exts : List Ext} {e : Ext} {ident : String}
    (he : e ∈ exts) (hid : ident ∈ aliasesOf e)
    (huniq : ∀ e' ∈ exts, ident ∈ aliasesOf e' → e' = e) :
    getExtension exts ident = some e := by
  induction exts with
  | nil => cases he
  | cons h t ih =>
    by_cases hh : ident ∈ aliasesOf h
    · have heq : h = e := huniq h (List.mem_cons_self h t) hh
      have hpe : (fun e' => decide (ident ∈ aliasesOf e')) h = true := by simpa using hh
      rw [getExtension,
        find?_cons_true (fun e' => decide (ident ∈ aliasesOf e')) h t hpe, heq]
    · have het : e ∈ t := by
        rcases List.mem_cons.mp he with h' | h'
        · exact absurd (h' ▸ hid) hh
        · exact h'
      have hpe : (fun e' => decide (ident ∈ aliasesOf e')) h = false := by simpa using hh
      rw [getExtension,
        find?_cons_false (fun e' => decide (ident ∈ aliasesOf e')) h t hpe]
      exact ih het (fun e' he' hid' => huniq e' (List.mem_cons_of_mem _ he') hid')

/-- C7: for a loaded extension `e`, `get_extension` returns `e`'s handle
whenever the identifier lies in `e`'s alias set — which contains its name,
source, module name, every `implements` entry, and every runtime-added
alias — and it returns `none` (not an error) when no loaded extension
matches.  Lookup is first-match, so the uniqueness hypothesis pins down
"that extension's handle". -/
theorem get_extension_lookup (exts : List Ext) (e : Ext) (ident : String)
    (he : e ∈ exts) (hid : ident ∈ aliasesOf e)
    (huniq : ∀ e' ∈ exts, ident ∈ aliasesOf e' → e' = e) :
    getExtension exts ident = some e ∧
    (∀ ident', (∀ e' ∈ exts, ident' ∉ aliasesOf e') → getExtension exts ident' = none) ∧
    e.md.name ∈ aliasesOf e ∧ e.md.source ∈ aliasesOf e ∧
    (∀ x ∈ e.md.implements, x ∈ aliasesOf e) ∧
    (∀ a, a ∈ aliasesOf (addAlias e a)) := by
  refine ⟨getExtension_first_match he hid huniq, ?_, ?_, ?_, ?_, ?_⟩
  · intro ident' hnone
    apply List.find?_eq_none.mpr
    intro x hx
    simpa using hnone x hx
  · simp [aliasesOf]
  · simp [aliasesOf]
  · intro x hx
    simp [aliasesOf, hx]
  · intro a
    exact (mem_aliasesOf_addAlias e a a).mpr (Or.inl rfl)

/-- A concrete loaded extension for the C7 witness. -/
def extW : Ext := mkExt (fun s => s) "./extensions/w" (mkMd "N" "S" [] [] ["I"])

/-- Witness for C7: lookup of the concrete extension by its name. -/
theorem get_extension_lookup_witness :
    getExtension [extW] "N" = some extW ∧
    (∀ ident', (∀ e' ∈ [extW], ident' ∉ aliasesOf e') → getExtension [extW] ident' = none) ∧
    extW.md.name ∈ aliasesOf extW ∧ extW.md.source ∈ aliasesOf extW ∧
    (∀ x ∈ extW.md.implements, x ∈ aliasesOf extW) ∧
    (∀ a, a ∈ aliasesOf (addAlias extW a)) :=
  get_extension_lookup [extW] extW "N" (by decide) (by decide) (by decide)

/-- C8 (amended): `add_alias` adds the name to the handle's alias set
unconditionally — afterwards the aliases are exactly the old ones plus the
new name.  It has no failure path at all: a collision with a different
handle's existing alias is not detected (counterexample below), and other
handles are untouched since the mutation is local to one Extension
object. -/
theorem add_alias_unconditional (e : Ext) (a : String) :
    a ∈ aliasesOf (addAlias e a) ∧
    ∀ b, b ∈ aliasesOf (addAlias e a) ↔ (b = a ∨ b ∈ aliasesOf e) :=
  ⟨(mem_aliasesOf_addAlias e a a).mpr (Or.inl rfl), fun b => mem_aliasesOf_addAlias e a b⟩

/-- Two concrete handles for the C8 counterexample. -/
def extA : Ext := mkExt (fun s => s) "./extensions/e1" (mkMd "n1" "a" [] [] [])

/-- Second concrete handle for the C8 counterexample. -/
def extB : Ext := mkExt (fun s => s) "./extensions/e2" (mkMd "n2" "b" [] [] [])

/-- Counterexample for C8 as stated: `"a"` already belongs to `extA`'s alias
set, yet `add_alias extB "a"` completes (the operation is total, with no
failure path) and afterwards BOTH distinct handles carry the alias. -/
theorem add_alias_no_failure_counterexample :
    "a" ∈ aliasesOf extA ∧ extA ≠ extB ∧ "a" ∈ aliasesOf (addAlias extB "a") := by decide

/-- C10: during `load`, the Extension object is appended to the state's
extension list BEFORE the module's entry point runs: the state list the
entry point observes already contains the new extension (so the extension
can look itself up via `get_extension` during its own initialization), and
when the entry point raises, the load loop stops with the failing extension
still in the list — no rollback. -/
theorem load_registers_before_exec (md5hex : String → String) (st : List Ext)
    (p : Path) (md : Metadata) (execOk : Path → List Ext → Bool)
    (rest : List Path) (batch : List (Path × Metadata))
    (hfind : batch.find? (fun e => decide (e.1 = p)) = some (p, md)) :
    mkExt md5hex p md ∈ (load md5hex st p md execOk).1 ∧
    (load md5hex st p md execOk).1 = st ++ [mkExt md5hex p md] ∧
    (load md5hex st p md execOk).2 = execOk p (st ++ [mkExt md5hex p md]) ∧
    ((∀ e ∈ st, md.source ∉ aliasesOf e) →
      getExtension (st ++ [mkExt md5hex p md]) md.source = some (mkExt md5hex p md)) ∧
    (execOk p (st ++ [mkExt md5hex p md]) = false →
      loadLoop md5hex (p :: rest) batch execOk st
        = (st ++ [mkExt md5hex p md], some (.execFailure p))) := by
  refine ⟨by simp [load], rfl, rfl, ?_, ?_⟩
  · intro hnone
    induction st with
    | nil =>
      rw [List.nil_append, getExtension]
      exact find?_cons_true (fun e => decide (md.source ∈ aliasesOf e))
        (mkExt md5hex p md) [] (by simp [mkExt, aliasesOf])
    | cons h t ih =>
      have hh : (fun e => decide (md.source ∈ aliasesOf e)) h = false := by
        simpa using hnone h (List.mem_cons_self h t)
      rw [List.cons_append, getExtension,
        find?_cons_false (fun e => decide (md.source ∈ aliasesOf e)) h
          (t ++ [mkExt md5hex p md]) hh]
      exact ih (fun e he => hnone e (List.mem_cons_of_mem _ he))
  · intro hfail
    simp only [loadLoop, hfind]
    simp [load, hfail]

/-- Witness for C10: a single concrete extension whose entry point raises —
it sees itself in the state and stays registered after the failure. -/
theorem load_registers_before_exec_witness :
    mkExt (fun s => s) "./extensions/z" (mkMd "Z" "sz" [] [] [])
        ∈ (load (fun s => s) [] "./extensions/z" (mkMd "Z" "sz" [] [] [])
            (fun _ _ => false)).1 ∧
    (load (fun s => s) [] "./extensions/z" (mkMd "Z" "sz" [] [] [])
        (fun _ _ => false)).1
      = [] ++ [mkExt (fun s => s) "./extensions/z" (mkMd "Z" "sz" [] [] [])] ∧
    (load (fun s => s) [] "./extensions/z" (mkMd "Z" "sz" [] [] [])
        (fun _ _ => false)).2
      = (fun (_ : Path) (_ : List Ext) => false) "./extensions/z"
          ([] ++ [mkExt (fun s => s) "./extensions/z" (mkMd "Z" "sz" [] [] [])]) ∧
    ((∀ e ∈ ([] : List Ext), (mkMd "Z" "sz" [] [] []).source ∉ aliasesOf e) →
      getExtension ([] ++ [mkExt (fun s => s) "./extensions/z" (mkMd "Z" "sz" [] [] [])])
          (mkMd "Z" "sz" [] [] []).source
        = some (mkExt (fun s => s) "./extensions/z" (mkMd "Z" "sz" [] [] []))) ∧
    ((fun (_ : Path) (_ : List Ext) => false) "./extensions/z"
        ([] ++ [mkExt (fun s => s) "./extensions/z" (mkMd "Z" "sz" [] [] [])]) = false →
      loadLoop (fun s => s) ["./extensions/z"]
          [("./extensions/z", mkMd "Z" "sz" [] [] [])] (fun _ _ => false) []
        = ([] ++ [mkExt (fun s => s) "./extensions/z" (mkMd "Z" "sz" [] [] [])],
           some (.execFailure "./extensions/z"))) :=
  load_registers_before_exec (fun s => s) [] "./extensions/z"
    (mkMd "Z" "sz" [] [] []) (fun _ _ => false) []
    [("./extensions/z", mkMd "Z" "sz" [] [] [])] (by decide)

/-! ### get_metadata of classes/extension_helper.py (lines 38–52) (C6) -/

/-- A TOML value as the manifest uses them: a string or a list of strings. -/
inductive TomlValue where
  | str (s : String)
  | strList (l : List String)
deriving DecidableEq

/-- A parsed TOML document: an insertion-ordered key/value map. -/
abbrev Doc := List (String × TomlValue)

/-- Python `'k' in d` / `d['k']`-style lookup (first occurrence; a parsed
TOML dict has unique keys). -/
def lookupKey (d : Doc) (k : String) : Option TomlValue :=
  (d.find? (fun e => decide (e.1 = k))).map Prod.snd

/-- The defaults dict literal of `get_metadata` (with `use_defaults=True`,
the default and the only way `load_all` calls it). -/
def defaultsDoc : Doc :=
  [("author", .str "Unknown"), ("version", .str "<unknown>"),
   ("license", .str "No license"), ("summary", .str "No summary provided."),
   ("description", .str "No description provided."),
   ("requires", .strList []), ("supports", .strList []),
   ("implements", .strList [])]

/-- `metadata.update(toml.load(fp))`: every key of the manifest overwrites
the entry in the defaults dict, in manifest order. -/
def dictUpdate (d m : Doc) : Doc :=
  m.foldl (fun acc e => dictInsert acc e.1 e.2) d

/-- `ExtensionHelper.get_metadata` (classes/extension_helper.py 38–52):
overlay the manifest onto the defaults, then fail iff `name` or `source`
is absent from the result. -/
def get_metadata (m : Doc) : Except String Doc :=
  let md := dictUpdate defaultsDoc m
  if lookupKey md "name" = none ∨ lookupKey md "source" = none then
    .error "does not provide a name and a source"
  else .ok md

theorem lookupKey_cons_hit {e : String × TomlValue} {rest : Doc} {k : String}
    (h : e.1 = k) : lookupKey (e :: rest) k = some e.2 := by
  rw [lookupKey, find?_cons_true (fun x => decide (x.1 = k)) e rest (by simpa using h)]
  rfl

theorem lookupKey_cons_skip {e : String × TomlValue} {rest : Doc} {k : String}
    (h : ¬ e.1 = k) : lookupKey (e :: rest) k = lookupKey rest k := by
  rw [lookupKey, find?_cons_false (fun x => decide (x.1 = k)) e rest (by simpa using h)]
  rfl

theorem lookupKey_eq_none_of_any_false {d : Doc} {k : String}
    (h : d.any (fun e => decide (e.1 = k)) = false) : lookupKey d k = none := by
  have hall := List.any_eq_false.mp h
  simp [lookupKey, List.find?_eq_none.mpr hall]

theorem lookupKey_mapReplace (d : Doc) (k k' : String) (v : TomlValue) :
    lookupKey (d.map (fun e => if e.1 = k then (k, v) else e)) k' =
      if k' = k then
        (if d.any (fun e => decide (e.1 = k)) then some v else none)
      else lookupKey d k' := by
  induction d with
  | nil => simp [lookupKey]
  | cons e rest ih =>
    by_cases he : e.1 = k
    · have hany : ((e :: rest).any (fun x => decide (x.1 = k))) = true := by
        simp [List.any_cons, he]
      by_cases hk' : k' = k
      · subst hk'
        rw [List.map_cons, if_pos he, lookupKey_cons_hit rfl]
        simp [hany]
      · have h1 : ¬ ((k, v) : String × TomlValue).1 = k' := fun hc => hk' hc.symm
        have h2 : ¬ e.1 = k' := by
          rw [he]
          exact fun hc => hk' hc.symm
        rw [List.map_cons, if_pos he, lookupKey_cons_skip h1, ih]
        simp only [if_neg hk']
        rw [lookupKey_cons_skip h2]
    · by_cases hke : e.1 = k'
      · have hk' : ¬ k' = k := fun hc => he (hke.trans hc)
        rw [List.map_cons, if_neg he, lookupKey_cons_hit hke]
        simp only [if_neg hk']
        rw [lookupKey_cons_hit hke]
      · rw [List.map_cons, if_neg he, lookupKey_cons_skip hke, ih]
        have hany : ((e :: rest).any (fun x => decide (x.1 = k)))
            = (rest.any (fun x => decide (x.1 = k))) := by
          simp [List.any_cons, he]
        by_cases hk' : k' = k
        · simp only [if_pos hk', hany]
        · simp only [if_neg hk']
          rw [lookupKey_cons_skip hke]

theorem lookupKey_append_single (d : Doc) (k k' : String) (v : TomlValue) :
    lookupKey (d ++ [(k, v)]) k' =
      match lookupKey d k' with
      | some w => some w
      | none => if k = k' then some v else none := by
  induction d with
  | nil =>
    by_cases h : k = k'
    · rw [List.nil_append, lookupKey_cons_hit h]
      simp [lookupKey, h]
    · rw [List.nil_append, lookupKey_cons_skip h]
      simp [lookupKey, h]
  | cons e rest ih =>
    by_cases hke : e.1 = k'
    · rw [List.cons_append, lookupKey_cons_hit hke]
      rw [show lookupKey (e :: rest) k' = some e.2 from lookupKey_cons_hit hke]
    · rw [List.cons_append, lookupKey_cons_skip hke, ih]
      rw [show lookupKey (e :: rest) k' = lookupKey rest k' from lookupKey_cons_skip hke]

theorem lookupKey_dictInsert (d : Doc) (k k' : String) (v : TomlValue) :
    lookupKey (dictInsert d k v) k' = if k' = k then some v else lookupKey d k' := by
  cases hany : d.any (fun e => decide (e.1 = k)) with
  | true =>
    simp only [dictInsert, hany, if_true]
    rw [lookupKey_mapReplace]
    by_cases hk' : k' = k
    · simp [hk', hany]
    · simp [hk']
  | false =>
    simp only [dictInsert, hany, Bool.false_eq_true, if_false]
    rw [lookupKey_append_single]
    by_cases hk' : k' = k
    · subst hk'
      simp [lookupKey_eq_none_of_any_false hany]
    · have hkk : ¬ k = k' := fun hc => hk' hc.symm
      cases hd : lookupKey d k' with
      | some w => simp [hk']
      | none => simp [hk', hkk]

theorem lookupKey_cons_none {e : String × TomlValue} {rest : Doc} {k : String}
    (h : lookupKey (e :: rest) k = none) : ¬ e.1 = k ∧ lookupKey rest k = none := by
  by_cases he : e.1 = k
  · rw [lookupKey_cons_hit he] at h
    cases h
  · rw [lookupKey_cons_skip he] at h
    exact ⟨he, h⟩

theorem lookupKey_dictUpdate_none :
    ∀ (m d : Doc) (k : String), lookupKey m k = none →
      lookupKey (dictUpdate d m) k = lookupKey d k := by
  intro m
  induction m with
  | nil =>
    intro d k _
    rfl
  | cons e rest ih =>
    intro d k hk
    obtain ⟨h1, h2⟩ := lookupKey_cons_none hk
    simp only [dictUpdate, List.foldl_cons]
    have := ih (dictInsert d e.1 e.2) k h2
    simp only [dictUpdate] at this
    rw [this, lookupKey_dictInsert]
    rw [if_neg (show ¬ k = e.1 from fun hc => h1 hc.symm)]

theorem lookupKey_eq_none_of_not_mem {d : Doc} {k : String}
    (h : k ∉ d.map Prod.fst) : lookupKey d k = none := by
  apply lookupKey_eq_none_of_any_false
  apply List.any_eq_false.mpr
  intro e he
  simp only [decide_eq_true_eq]
  intro hc
  exact h (hc ▸ List.mem_map_of_mem Prod.fst he)

theorem lookupKey_dictUpdate_some :
    ∀ (m d : Doc) (k : String) (v : TomlValue), (m.map Prod.fst).Nodup →
      lookupKey m k = some v → lookupKey (dictUpdate d m) k = some v := by
  intro m
  induction m with
  | nil =>
    intro d k v _ hk
    cases hk
  | cons e rest ih =>
    intro d k v hnd hk
    simp only [dictUpdate, List.foldl_cons]
    have hnd1 := List.nodup_cons.mp (show (e.1 :: rest.map Prod.fst).Nodup from hnd)
    by_cases he : e.1 = k
    · have hv : e.2 = v := by
        rw [lookupKey_cons_hit he] at hk
        exact Option.some.inj hk
      have hknotin : k ∉ rest.map Prod.fst := he ▸ hnd1.1
      have hrest : lookupKey rest k = none := lookupKey_eq_none_of_not_mem hknotin
      have := lookupKey_dictUpdate_none rest (dictInsert d e.1 e.2) k hrest
      simp only [dictUpdate] at this
      rw [this, lookupKey_dictInsert]
      simp [he, hv]
    · rw [lookupKey_cons_skip he] at hk
      exact ih (dictInsert d e.1 e.2) k v hnd1.2 hk

theorem lookupKey_of_mem {d : Doc} (hnd : (d.map Prod.fst).Nodup) {k : String}
    {v : TomlValue} (h : (k, v) ∈ d) : lookupKey d k = some v := by
  induction d with
  | nil => cases h
  | cons e rest ih =>
    have hnd1 := List.nodup_cons.mp (show (e.1 :: rest.map Prod.fst).Nodup from hnd)
    rcases List.mem_cons.mp h with h' | h'
    · have h1 : e.1 = k := (congrArg Prod.fst h').symm
      have h2 : e.2 = v := (congrArg Prod.snd h').symm
      rw [lookupKey_cons_hit h1, h2]
    · have hne : ¬ e.1 = k := by
        intro hc
        apply hnd1.1
        have := List.mem_map_of_mem Prod.fst h'
        rw [hc]
        exact this
      rw [lookupKey_cons_skip hne]
      exact ih hnd1.2 h'

/-- The overlay does not invent `name`/`source`: their presence after the
update equals their presence in the manifest, since the defaults dict has
no such keys. -/
theorem lookupKey_overlay_identity (m : Doc) (hnd : (m.map Prod.fst).Nodup)
    (k : String) (hk : k ∉ defaultsDoc.map Prod.fst) :
    lookupKey (dictUpdate defaultsDoc m) k = lookupKey m k := by
  cases hm : lookupKey m k with
  | some v => exact lookupKey_dictUpdate_some m defaultsDoc k v hnd hm
  | none =>
    rw [lookupKey_dictUpdate_none m defaultsDoc k hm]
    exact lookupKey_eq_none_of_not_mem hk

/-- C6: `get_metadata` applies the documented defaults for author, version,
license, summary, description, requires, supports and implements; a key
explicitly present in the manifest always overrides its default and never
the reverse; and it fails iff `name` or `source` is absent after the
overlay (equivalently, absent from the manifest, since those two keys have
no default). -/
theorem get_metadata_spec (m : Doc) (hnd : (m.map Prod.fst).Nodup) :
    ((∃ err, get_metadata m = .error err) ↔
      (lookupKey m "name" = none ∨ lookupKey m "source" = none)) ∧
    ((∃ md, get_metadata m = .ok md) ↔
      (lookupKey m "name" ≠ none ∧ lookupKey m "source" ≠ none)) ∧
    (∀ k v, lookupKey m k = some v →
      ∀ md, get_metadata m = .ok md → lookupKey md k = some v) ∧
    (∀ k v, (k, v) ∈ defaultsDoc → lookupKey m k = none →
      ∀ md, get_metadata m = .ok md → lookupKey md k = some v) := by
  have hname : lookupKey (dictUpdate defaultsDoc m) "name" = lookupKey m "name" :=
    lookupKey_overlay_identity m hnd "name" (by decide)
  have hsource : lookupKey (dictUpdate defaultsDoc m) "source" = lookupKey m "source" :=
    lookupKey_overlay_identity m hnd "source" (by decide)
  refine ⟨?_, ?_, ?_, ?_⟩
  · constructor
    · rintro ⟨err, herr⟩
      simp only [get_metadata] at herr
      by_cases hc : lookupKey (dictUpdate defaultsDoc m) "name" = none
          ∨ lookupKey (dictUpdate defaultsDoc m) "source" = none
      · rw [hname, hsource] at hc
        exact hc
      · rw [if_neg hc] at herr
        cases herr
    · intro hc
      refine ⟨"does not provide a name and a source", ?_⟩
      simp only [get_metadata]
      rw [if_pos (by rw [hname, hsource]; exact hc)]
  · constructor
    · rintro ⟨md, hmd⟩
      simp only [get_metadata] at hmd
      by_cases hc : lookupKey (dictUpdate defaultsDoc m) "name" = none
          ∨ lookupKey (dictUpdate defaultsDoc m) "source" = none
      · rw [if_pos hc] at hmd
        cases hmd
      · rw [hname, hsource] at hc
        push_neg at hc
        exact hc
    · intro hc
      refine ⟨dictUpdate defaultsDoc m, ?_⟩
      simp only [get_metadata]
      rw [if_neg (by rw [hname, hsource]; push_neg; exact hc)]
  · intro k v hkv md hmd
    have hmd2 : md = dictUpdate defaultsDoc m := by
      simp only [get_metadata] at hmd
      by_cases hc : lookupKey (dictUpdate defaultsDoc m) "name" = none
          ∨ lookupKey (dictUpdate defaultsDoc m) "source" = none
      · rw [if_pos hc] at hmd
        cases hmd
      · rw [if_neg hc] at hmd
        exact (Except.ok.inj hmd).symm
    rw [hmd2]
    exact lookupKey_dictUpdate_some m defaultsDoc k v hnd hkv
  · intro k v hdef hnone md hmd
    have hmd2 : md = dictUpdate defaultsDoc m := by
      simp only [get_metadata] at hmd
      by_cases hc : lookupKey (dictUpdate defaultsDoc m) "name" = none
          ∨ lookupKey (dictUpdate defaultsDoc m) "source" = none
      · rw [if_pos hc] at hmd
        cases hmd
      · rw [if_neg hc] at hmd
        exact (Except.ok.inj hmd).symm
    rw [hmd2, lookupKey_dictUpdate_none m defaultsDoc k hnone]
    exact lookupKey_of_mem (by decide) hdef

/-- Witness for C6: a concrete manifest declaring name, source and author;
the author override wins, every other default survives, and parsing
succeeds. -/
theorem get_metadata_spec_witness :
    ((∃ err, get_metadata [("name", .str "x"), ("source", .str "sx"),
        ("author", .str "Me")] = .error err) ↔
      (lookupKey [("name", .str "x"), ("source", .str "sx"),
        ("author", .str "Me")] "name" = none ∨
       lookupKey [("name", .str "x"), ("source", .str "sx"),
        ("author", .str "Me")] "source" = none)) ∧
    ((∃ md, get_metadata [("name", .str "x"), ("source", .str "sx"),
        ("author", .str "Me")] = .ok md) ↔
      (lookupKey [("name", .str "x"), ("source", .str "sx"),
        ("author", .str "Me")] "name" ≠ none ∧
       lookupKey [("name", .str "x"), ("source", .str "sx"),
        ("author", .str "Me")] "source" ≠ none)) ∧
    (∀ k v, lookupKey [("name", .str "x"), ("source", .str "sx"),
        ("author", .str "Me")] k = some v →
      ∀ md, get_metadata [("name", .str "x"), ("source", .str "sx"),
        ("author", .str "Me")] = .ok md → lookupKey md k = some v) ∧
    (∀ k v, (k, v) ∈ defaultsDoc →
      lookupKey [("name", .str "x"), ("source", .str "sx"),
        ("author", .str "Me")] k = none →
      ∀ md, get_metadata [("name", .str "x"), ("source", .str "sx"),
        ("author", .str "Me")] = .ok md → lookupKey md k = some v) :=
  get_metadata_spec [("name", .str "x"), ("source", .str "sx"), ("author", .str "Me")]
    (by decide)

/-! ### load_all of classes/extension_helper.py (C9) -/

/-- The Python exception classes relevant to classes/extension_helper.py's
`load_all`. -/
inductive PyError where
  | typeError
  | runtimeError
deriving DecidableEq

/-- `ExtensionHelper.load_all` of classes/extension_helper.py (71–137) — the
only revision that handles `supports`.  Its first loop runs, for each
descriptor in turn: fill `e.implements` with the name, the source and the
declared implements; check the conflict against the accumulated
`implemented` set; then execute `e.requires += e.metadata['requires']`.
But `e.requires` is a `set` and `set.__iadd__` does not exist, so that
statement raises `TypeError` unconditionally.  Hence for any non-empty
batch the function raises `TypeError` in its first iteration (the conflict
check cannot fire there because `implemented` is still empty), and the
`supports` handling further down — itself containing the same broken
`e.requires += other` — is never reached.  Only an empty batch completes,
loading nothing. -/
def load_all_classes (batch : List Metadata) : Except PyError Unit :=
  match batch with
  | [] => .ok ()
  | md :: _ =>
    let caps := md.name :: md.source :: md.implements
    if caps.any (fun x => decide (x ∈ ([] : List String))) then .error .runtimeError
    else .error .typeError

/-- C9: the claim says a descriptor whose `supports` names an identity that
no batch member implements loads successfully with no added edge (spec
Scenario 5).  The code that implements `supports`
(classes/extension_helper.py) instead raises `TypeError` on every
non-empty batch, at `e.requires += e.metadata['requires']`, before the
supports handling is ever reached — evaluated here at Scenario 5's
descriptor `{source: "opt", supports: ["maybe"]}`. -/
theorem load_all_classes_type_error :
    load_all_classes [mkMd "opt" "opt" [] ["maybe"] []] = .error .typeError := by decide

end Chattyboi
